import Mathlib

/-!
Verification development for the fantastical CLI (a Go command-line wrapper
around the Fantastical calendar application's URL handler, AppleScript bridge
and EventKit helper).  The definitions below are a shallow embedding of the
program's pure core: string/URL construction (fantastical.go), configuration
layering (config.go), date-range resolution, the command pipelines of
parse / show / applescript, the EventKit helper cache, and the top-level
run dispatcher.  Stateful pieces (filesystem, subprocesses) are modelled by
explicit state passing and event traces.
-/

namespace Fantastical

/-! ## Basic character and string helpers (models of the Go standard library
functions used by the program; `strings.TrimSpace` and `strings.ToLower` are
modelled on their ASCII behaviour, which is the only behaviour the program's
keywords and configuration values exercise). -/

/-- Go `unicode.IsSpace` restricted to ASCII: the characters trimmed by
`strings.TrimSpace` on ASCII input. -/
def isSpaceChar (c : Char) : Bool :=
  c = ' ' || c = '\t' || c = '\n' || c = '\x0b' || c = '\x0c' || c = '\r'

/-- Remove the trailing run of characters satisfying `p`. -/
def trimRightList (p : Char → Bool) : List Char → List Char
  | [] => []
  | a :: t =>
    match trimRightList p t with
    | [] => if p a then [] else [a]
    | r => a :: r

/-- Model of Go `strings.TrimSpace` (ASCII): remove the leading and trailing
runs of whitespace. -/
def trimSpace (s : String) : String :=
  ⟨trimRightList isSpaceChar (s.data.dropWhile isSpaceChar)⟩

/-- ASCII lower-casing of one character, as Go `strings.ToLower` does on ASCII. -/
def toLowerChar (c : Char) : Char :=
  if 'A' ≤ c ∧ c ≤ 'Z' then Char.ofNat (c.toNat + 32) else c

/-- Model of Go `strings.ToLower` (ASCII). -/
def lowerStr (s : String) : String :=
  ⟨s.data.map toLowerChar⟩

/-! ## Configuration model (config.go)

`Config` mirrors the Go `Config` struct: optional booleans are `*bool`
pointers in Go, `Option Bool` here; the `calendar`/`note` defaults are plain
strings.  The process environment is modelled as a total function from
variable name to value, with `""` meaning unset, exactly the semantics of
`os.Getenv`. -/

structure OutputConfig where
  open_   : Option Bool := none
  print   : Option Bool := none
  copy    : Option Bool := none
  json    : Option Bool := none
  plain   : Option Bool := none
  dryRun  : Option Bool := none
  verbose : Option Bool := none
  deriving Repr, DecidableEq

structure ParseConfig where
  calendar : String := ""
  note     : String := ""
  add      : Option Bool := none
  deriving Repr, DecidableEq

structure AppleScriptConfig where
  add   : Option Bool := none
  run   : Option Bool := none
  print : Option Bool := none
  deriving Repr, DecidableEq

structure Config where
  output      : OutputConfig := {}
  parse       : ParseConfig := {}
  applescript : AppleScriptConfig := {}
  deriving Repr, DecidableEq

/-- The process environment: `os.Getenv` semantics (unset reads as `""`). -/
def Env : Type := String → String

/-- Model of Go `strconv.ParseBool`. -/
def goParseBool (s : String) : Option Bool :=
  if s = "1" ∨ s = "t" ∨ s = "T" ∨ s = "true" ∨ s = "TRUE" ∨ s = "True" then some true
  else if s = "0" ∨ s = "f" ∨ s = "F" ∨ s = "false" ∨ s = "FALSE" ∨ s = "False" then some false
  else none

/-- `envBool` from config.go: `none` when the variable is unset/blank or does
not parse as a boolean. -/
def envBool (env : Env) (key : String) : Option Bool :=
  let val := trimSpace (env key)
  if val = "" then none else goParseBool val

/-- `envString` from config.go: `none` when the variable is unset or blank. -/
def envString (env : Env) (key : String) : Option String :=
  let val := trimSpace (env key)
  if val = "" then none else some val

/-- `mergeConfig` from config.go, written functionally: each field of `src`
overrides the corresponding field of `dst` when set (`Option.or src dst`
is exactly Go's `if src.F != nil { dst.F = src.F }`); the `calendar`/`note`
strings override when non-blank. -/
def mergeConfig (dst src : Config) : Config :=
  { output := {
      open_   := src.output.open_.or dst.output.open_
      print   := src.output.print.or dst.output.print
      copy    := src.output.copy.or dst.output.copy
      json    := src.output.json.or dst.output.json
      plain   := src.output.plain.or dst.output.plain
      dryRun  := src.output.dryRun.or dst.output.dryRun
      verbose := src.output.verbose.or dst.output.verbose }
    parse := {
      calendar := if trimSpace src.parse.calendar ≠ "" then src.parse.calendar else dst.parse.calendar
      note     := if trimSpace src.parse.note ≠ "" then src.parse.note else dst.parse.note
      add      := src.parse.add.or dst.parse.add }
    applescript := {
      add   := src.applescript.add.or dst.applescript.add
      run   := src.applescript.run.or dst.applescript.run
      print := src.applescript.print.or dst.applescript.print } }

/-- `applyEnvOverrides` from config.go: each recognised `FANTASTICAL_*`
variable overwrites the corresponding config field when set and parseable. -/
def applyEnvOverrides (env : Env) (cfg : Config) : Config :=
  { output := {
      open_   := (envBool env "FANTASTICAL_DEFAULT_OPEN").or cfg.output.open_
      print   := (envBool env "FANTASTICAL_DEFAULT_PRINT").or cfg.output.print
      copy    := (envBool env "FANTASTICAL_DEFAULT_COPY").or cfg.output.copy
      json    := (envBool env "FANTASTICAL_DEFAULT_JSON").or cfg.output.json
      plain   := (envBool env "FANTASTICAL_DEFAULT_PLAIN").or cfg.output.plain
      dryRun  := (envBool env "FANTASTICAL_DRY_RUN").or cfg.output.dryRun
      verbose := (envBool env "FANTASTICAL_VERBOSE").or cfg.output.verbose }
    parse := {
      calendar := ((envString env "FANTASTICAL_DEFAULT_CALENDAR").getD cfg.parse.calendar)
      note     := ((envString env "FANTASTICAL_DEFAULT_NOTE").getD cfg.parse.note)
      add      := (envBool env "FANTASTICAL_DEFAULT_ADD").or cfg.parse.add }
    applescript := {
      add   := (envBool env "FANTASTICAL_APPLESCRIPT_ADD").or cfg.applescript.add
      run   := (envBool env "FANTASTICAL_APPLESCRIPT_RUN").or cfg.applescript.run
      print := (envBool env "FANTASTICAL_APPLESCRIPT_PRINT").or cfg.applescript.print } }

/-- `loadConfigWithPath` from config.go, with the filesystem reads abstracted:
`userCfg` / `projectCfg` are the parsed contents of the user and project
config files (`none` when the file is missing or blank, exactly what
`readConfigFile` returns then).  The empty start config is merged with the
user file, then the project file, then the environment overrides. -/
def loadConfig (env : Env) (userCfg projectCfg : Option Config) : Config :=
  let cfg : Config := {}
  let cfg := match userCfg with
    | some c => mergeConfig cfg c
    | none => cfg
  let cfg := match projectCfg with
    | some c => mergeConfig cfg c
    | none => cfg
  applyEnvOverrides env cfg

/-! ## Effective command options (fantastical.go)

`outputOptions` etc. mirror the Go structs holding the resolved option
values.  Command-line flags are modelled as a patch of `Option` fields: Go's
`flag.BoolVar(&opts.f, "f", defaults.f, …)` leaves `opts.f` at the layered
default unless the flag appears on the command line, in which case the flag
value replaces it — i.e. `patch.f.getD defaults.f`. -/

structure OutputOptions where
  open_   : Bool := false
  print   : Bool := false
  copy    : Bool := false
  json    : Bool := false
  plain   : Bool := false
  dryRun  : Bool := false
  verbose : Bool := false
  deriving Repr, DecidableEq

/-- `defaultOutputOptions` from fantastical.go: built-in default is
`open = true`, everything else `false`, each overridden by the corresponding
config field when present. -/
def defaultOutputOptions (cfg : Option Config) : OutputOptions :=
  let opts : OutputOptions := { open_ := true }
  match cfg with
  | none => opts
  | some c =>
    { open_   := c.output.open_.getD opts.open_
      print   := c.output.print.getD opts.print
      copy    := c.output.copy.getD opts.copy
      json    := c.output.json.getD opts.json
      plain   := c.output.plain.getD opts.plain
      dryRun  := c.output.dryRun.getD opts.dryRun
      verbose := c.output.verbose.getD opts.verbose }

structure ParseOptions where
  out      : OutputOptions := {}
  note     : String := ""
  calendar : String := ""
  add      : Bool := false
  stdin    : Bool := false
  params   : List String := []
  timezone : String := ""
  deriving Repr, DecidableEq

/-- `defaultParseOptions` from fantastical.go. -/
def defaultParseOptions (cfg : Option Config) : ParseOptions :=
  let opts : ParseOptions := { out := defaultOutputOptions cfg }
  match cfg with
  | none => opts
  | some c =>
    { opts with
      calendar := if trimSpace c.parse.calendar ≠ "" then c.parse.calendar else opts.calendar
      note     := if trimSpace c.parse.note ≠ "" then c.parse.note else opts.note
      add      := c.parse.add.getD opts.add }

structure AppleScriptOptions where
  add     : Bool := false
  run     : Bool := true
  print   : Bool := false
  dryRun  : Bool := false
  verbose : Bool := false
  stdin   : Bool := false
  deriving Repr, DecidableEq

/-- `defaultAppleScriptOptions` from fantastical.go: built-in default is
`run = true`; `dryRun`/`verbose` come from the shared output config. -/
def defaultAppleScriptOptions (cfg : Option Config) : AppleScriptOptions :=
  let opts : AppleScriptOptions := { run := true }
  match cfg with
  | none => opts
  | some c =>
    { add     := c.applescript.add.getD opts.add
      run     := c.applescript.run.getD opts.run
      print   := c.applescript.print.getD opts.print
      dryRun  := c.output.dryRun.getD opts.dryRun
      verbose := c.output.verbose.getD opts.verbose
      stdin   := opts.stdin }

/-- Explicitly-set command-line flags for the output options (a field is
`some b` exactly when the flag was given on the command line). -/
structure OutputFlags where
  open_   : Option Bool := none
  print   : Option Bool := none
  copy    : Option Bool := none
  json    : Option Bool := none
  plain   : Option Bool := none
  dryRun  : Option Bool := none
  verbose : Option Bool := none
  deriving Repr, DecidableEq

/-- Explicitly-set command-line flags of the `parse` command. -/
structure ParseFlags where
  out      : OutputFlags := {}
  note     : Option String := none
  calendar : Option String := none
  add      : Option Bool := none
  deriving Repr, DecidableEq

/-- Explicitly-set command-line flags of the `applescript` command. -/
structure AppleScriptFlags where
  add     : Option Bool := none
  run     : Option Bool := none
  print   : Option Bool := none
  dryRun  : Option Bool := none
  verbose : Option Bool := none
  deriving Repr, DecidableEq

/-- Flag parsing result for the output options: each explicitly given flag
replaces the layered default (Go `flag` semantics). -/
def applyOutputFlags (fl : OutputFlags) (d : OutputOptions) : OutputOptions :=
  { open_   := fl.open_.getD d.open_
    print   := fl.print.getD d.print
    copy    := fl.copy.getD d.copy
    json    := fl.json.getD d.json
    plain   := fl.plain.getD d.plain
    dryRun  := fl.dryRun.getD d.dryRun
    verbose := fl.verbose.getD d.verbose }

/-- Flag parsing result for the `parse` command options. -/
def applyParseFlags (fl : ParseFlags) (d : ParseOptions) : ParseOptions :=
  { d with
    out      := applyOutputFlags fl.out d.out
    note     := fl.note.getD d.note
    calendar := fl.calendar.getD d.calendar
    add      := fl.add.getD d.add }

/-- Flag parsing result for the `applescript` command options. -/
def applyAppleScriptFlags (fl : AppleScriptFlags) (d : AppleScriptOptions) : AppleScriptOptions :=
  { d with
    add    := fl.add.getD d.add
    run    := fl.run.getD d.run
    print  := fl.print.getD d.print
    dryRun := fl.dryRun.getD d.dryRun
    verbose := fl.verbose.getD d.verbose }

/-- The effective output options of a `parse`/`show` invocation: config files
and environment layered by `loadConfig`, converted to defaults, then patched
by the explicit command-line flags. -/
def effectiveOutputOptions (fl : OutputFlags) (env : Env) (userCfg projectCfg : Option Config) :
    OutputOptions :=
  applyOutputFlags fl (defaultOutputOptions (some (loadConfig env userCfg projectCfg)))

/-- The effective options of a `parse` invocation. -/
def effectiveParseOptions (fl : ParseFlags) (env : Env) (userCfg projectCfg : Option Config) :
    ParseOptions :=
  applyParseFlags fl (defaultParseOptions (some (loadConfig env userCfg projectCfg)))

/-- The effective options of an `applescript` invocation. -/
def effectiveAppleScriptOptions (fl : AppleScriptFlags) (env : Env)
    (userCfg projectCfg : Option Config) : AppleScriptOptions :=
  applyAppleScriptFlags fl (defaultAppleScriptOptions (some (loadConfig env userCfg projectCfg)))

/-- A string-valued config field is "present" when non-blank. -/
def optStr (s : String) : Option String :=
  if trimSpace s ≠ "" then some s else none

/-! ## Errors

Every error the modelled commands produce either wraps the `errUsage`
sentinel (`usage = true`, detected by `errors.Is(err, errUsage)` in `run`)
or not. -/

structure CLIError where
  usage : Bool
  msg : String
  deriving Repr, DecidableEq

/-! ## url.Values and query encoding (net/url as used by fantastical.go)

`url.Values` is a Go map from key to slice of values; it is modelled as an
association list whose list order plays the role of the (unspecified) map
iteration order.  `valuesSet`/`valuesAdd`/`valsFor` model `Values.Set`,
`Values.Add` and indexing. -/

abbrev Values : Type := List (String × List String)

/-- The key/value pairs a `url.Values` holds, in iteration/slice order. -/
def valuesPairs (v : Values) : List (String × String) :=
  v.flatMap (fun e => e.2.map (fun x => (e.1, x)))

/-- `url.Values.Set`: replace the values of `k` with the single value `v`. -/
def valuesSet (k v : String) : Values → Values
  | [] => [(k, [v])]
  | (k2, vs) :: rest =>
    if k2 = k then (k2, [v]) :: rest else (k2, vs) :: valuesSet k v rest

/-- `url.Values.Add`: append `v` to the values of `k`. -/
def valuesAdd (k v : String) : Values → Values
  | [] => [(k, [v])]
  | (k2, vs) :: rest =>
    if k2 = k then (k2, vs ++ [v]) :: rest else (k2, vs) :: valuesAdd k v rest

/-- Map indexing `v[k]` (empty slice when absent). -/
def valsFor (k : String) : Values → List String
  | [] => []
  | (k2, vs) :: rest => if k2 = k then vs else valsFor k rest

/-- Add every value of one map entry, in slice order (the inner loop of
`for key, vals := range extra { for _, v := range vals { q.Add(key, v) } }`). -/
def addAll (q : Values) (e : String × List String) : Values :=
  e.2.foldl (fun q v => valuesAdd e.1 v q) q

/-- Byte-wise (here character-wise, exact on ASCII) lexicographic order used
by `sort.Strings` in `url.Values.Encode`. -/
def charListLe : List Char → List Char → Bool
  | [], _ => true
  | _ :: _, [] => false
  | a :: as, b :: bs => if a = b then charListLe as bs else decide (a < b)

/-- `sort.Strings` comparison. -/
def strLeB (a b : String) : Bool := charListLe a.data b.data

/-- `sort.Strings`: sort a key list lexicographically (insertion sort, which
agrees with any correct sort on the Encode key lists). -/
def sortStrings (l : List String) : List String :=
  List.insertionSort (fun a b => strLeB a b = true) l

/-- Upper-case hexadecimal digit, as `"0123456789ABCDEF"[n]` in net/url. -/
def hexDigitUpper (n : Nat) : Char :=
  match n with
  | 0 => '0' | 1 => '1' | 2 => '2' | 3 => '3' | 4 => '4'
  | 5 => '5' | 6 => '6' | 7 => '7' | 8 => '8' | 9 => '9'
  | 10 => 'A' | 11 => 'B' | 12 => 'C' | 13 => 'D' | 14 => 'E' | 15 => 'F'
  | _ => '*'

/-- The bytes of the UTF-8 encoding of a character (net/url escapes the
UTF-8 bytes of non-ASCII characters). -/
def utf8Bytes (c : Char) : List Nat :=
  let n := c.toNat
  if n < 128 then [n]
  else if n < 2048 then [192 + n / 64, 128 + n % 64]
  else if n < 65536 then [224 + n / 4096, 128 + (n / 64) % 64, 128 + n % 64]
  else [240 + n / 262144, 128 + (n / 4096) % 64, 128 + (n / 64) % 64, 128 + n % 64]

/-- The characters `net/url.shouldEscape` leaves unescaped in a query
component: alphanumerics and `-` `_` `.` `~`. -/
def isUnreservedChar (c : Char) : Bool :=
  ('A' ≤ c && c ≤ 'Z') || ('a' ≤ c && c ≤ 'z') || ('0' ≤ c && c ≤ '9') ||
  c = '-' || c = '_' || c = '.' || c = '~'

/-- `net/url.QueryEscape` on one character: space becomes `'+'`, unreserved
characters stay, everything else is percent-encoded byte-wise. -/
def escapeChar (c : Char) : List Char :=
  if c = ' ' then ['+']
  else if isUnreservedChar c then [c]
  else (utf8Bytes c).flatMap (fun b => ['%', hexDigitUpper (b / 16), hexDigitUpper (b % 16)])

/-- `net/url.QueryEscape` on a character list. -/
def queryEscapeL (l : List Char) : List Char := l.flatMap escapeChar

/-- Join non-empty query components with `'&'` (the buffer loop of
`url.Values.Encode`). -/
def joinAmp : List (List Char) → List Char
  | [] => []
  | [x] => x
  | x :: xs => x ++ '&' :: joinAmp xs

/-- `url.Values.Encode`: keys sorted with `sort.Strings`, each value emitted
as `QueryEscape(k)=QueryEscape(v)` in slice order. -/
def valuesEncodeL (v : Values) : List Char :=
  let keys := sortStrings (v.map Prod.fst)
  joinAmp (keys.flatMap (fun k => (valsFor k v).map fun x =>
    queryEscapeL k.data ++ '=' :: queryEscapeL x.data))

/-- `strings.ReplaceAll(enc, "+", "%20")` at the character level. -/
def plusTo20 : List Char → List Char
  | [] => []
  | c :: cs => if c = '+' then '%' :: '2' :: '0' :: plusTo20 cs else c :: plusTo20 cs

/-- `encodeQuery` from fantastical.go: `url.Values.Encode`, then every `'+'`
(the space encoding) replaced by `%20`. -/
def encodeQuery (v : Values) : String := ⟨plusTo20 (valuesEncodeL v)⟩

/-- Modelled from the spec: the percent-encoding the spec describes for the
query, in which a space is encoded as `%20` and never as `'+'` (compared
below against the implementation's encode-then-replace pipeline). -/
def escape20 (c : Char) : List Char :=
  if c = ' ' then ['%', '2', '0'] else escapeChar c

/-- Modelled from the spec: the whole query encoded with `escape20`. -/
def valuesEncode20L (v : Values) : List Char :=
  let keys := sortStrings (v.map Prod.fst)
  joinAmp (keys.flatMap (fun k => (valsFor k v).map fun x =>
    k.data.flatMap escape20 ++ '=' :: x.data.flatMap escape20))

/-- The URL scheme constant `fantasticalScheme`. -/
def fantasticalScheme : String := "x-fantastical3://"

/-- The query map assembled by `buildParseURL`. -/
def buildParseQuery (sentence note calendar : String) (add : Bool) (extra : Values) : Values :=
  let q : Values := valuesSet "s" sentence []
  let q := if trimSpace note ≠ "" then valuesSet "n" note q else q
  let q := if trimSpace calendar ≠ "" then valuesSet "calendarName" calendar q else q
  let q := if add then valuesSet "add" "1" q else q
  extra.foldl addAll q

/-- `buildParseURL` from fantastical.go. -/
def buildParseURL (sentence note calendar : String) (add : Bool) (extra : Values) : String :=
  fantasticalScheme ++ "parse?" ++ encodeQuery (buildParseQuery sentence note calendar add extra)

/-! ## Dates (time package, as used by parseDateArg and show) -/

structure Date where
  year : Int
  month : Nat
  day : Nat
  deriving Repr, DecidableEq

/-- `isLeap` from the time package. -/
def isLeapYear (y : Int) : Bool :=
  y % 4 = 0 && (y % 100 ≠ 0 || y % 400 = 0)

/-- `daysIn` from the time package (the month-length table, with February
depending on leap years). -/
def daysInMonth (y : Int) (m : Nat) : Nat :=
  match m with
  | 1 => 31
  | 2 => if isLeapYear y then 29 else 28
  | 3 => 31
  | 4 => 30
  | 5 => 31
  | 6 => 30
  | 7 => 31
  | 8 => 31
  | 9 => 30
  | 10 => 31
  | 11 => 30
  | _ => 31

/-- A calendar date the time package would report back unchanged. -/
def ValidDate (d : Date) : Prop :=
  1 ≤ d.month ∧ d.month ≤ 12 ∧ 1 ≤ d.day ∧ d.day ≤ daysInMonth d.year d.month

instance (d : Date) : Decidable (ValidDate d) := by unfold ValidDate; infer_instance

/-- The normalisation `time.Date` applies to out-of-range month and day
components (fuel-bounded rolling over month and year boundaries; the fuel is
ample for the `±1` day offsets the program uses). -/
def fixDate : Nat → Int → Int → Int → Date
  | 0, y, m, d => ⟨y, m.toNat, d.toNat⟩
  | fuel + 1, y, m, d =>
    if m < 1 then fixDate fuel (y - 1) (m + 12) d
    else if m > 12 then fixDate fuel (y + 1) (m - 12) d
    else if d < 1 then
      let y2 : Int := if m = 1 then y - 1 else y
      let m2 : Int := if m = 1 then 12 else m - 1
      fixDate fuel y2 m2 (d + daysInMonth y2 m2.toNat)
    else if d > daysInMonth y m.toNat then
      fixDate fuel y (m + 1) (d - daysInMonth y m.toNat)
    else ⟨y, m.toNat, d.toNat⟩

/-- Model of Go `t.AddDate(0, 0, n)` on the date component. -/
def addDays (dt : Date) (n : Int) : Date :=
  fixDate 50 dt.year dt.month ((dt.day : Int) + n)

/-- A wall-clock instant: a date and the seconds elapsed since its local
midnight (time zone and DST behaviour are outside the model). -/
structure GoTime where
  date : Date
  clock : Nat
  deriving Repr, DecidableEq

/-- The `midnight` closure of `parseDateArg`: same day, zero clock. -/
def midnight (t : GoTime) : GoTime := ⟨t.date, 0⟩

/-- `t.AddDate(0, 0, days)`. -/
def goAddDate (t : GoTime) (days : Int) : GoTime := ⟨addDays t.date days, t.clock⟩

/-- Numeric value of an ASCII digit character. -/
def digitVal (c : Char) : Nat := c.toNat - 48

/-- ASCII digit test. -/
def isDigitChar (c : Char) : Bool := decide (48 ≤ c.toNat) && decide (c.toNat ≤ 57)

/-- Model of Go `time.ParseInLocation("2006-01-02", s, …)`: exactly four
digits, dash, two digits, dash, two digits, with month and day range checks
(`month out of range` / `day out of range`). -/
def parseYMD (s : String) : Option Date :=
  match s.data with
  | [y1, y2, y3, y4, h1, m1, m2, h2, d1, d2] =>
    if isDigitChar y1 && isDigitChar y2 && isDigitChar y3 && isDigitChar y4 &&
        (h1 = '-' : Bool) && isDigitChar m1 && isDigitChar m2 &&
        (h2 = '-' : Bool) && isDigitChar d1 && isDigitChar d2 then
      if 1 ≤ 10 * digitVal m1 + digitVal m2 ∧ 10 * digitVal m1 + digitVal m2 ≤ 12 ∧
          1 ≤ 10 * digitVal d1 + digitVal d2 ∧
          10 * digitVal d1 + digitVal d2 ≤
            daysInMonth
              (Int.ofNat (1000 * digitVal y1 + 100 * digitVal y2 + 10 * digitVal y3 + digitVal y4))
              (10 * digitVal m1 + digitVal m2) then
        some ⟨Int.ofNat (1000 * digitVal y1 + 100 * digitVal y2 + 10 * digitVal y3 + digitVal y4),
          10 * digitVal m1 + digitVal m2, 10 * digitVal d1 + digitVal d2⟩
      else none
    else none
  | _ => none

/-- Decimal digit as a character. -/
def digitChar (n : Nat) : Char :=
  match n with
  | 0 => '0' | 1 => '1' | 2 => '2' | 3 => '3' | 4 => '4'
  | 5 => '5' | 6 => '6' | 7 => '7' | 8 => '8' | 9 => '9'
  | _ => '*'

/-- Model of Go `t.Format("2006-01-02")` for years 0 through 9999 (the only
years the parser can produce). -/
def formatYMD (dt : Date) : String :=
  let y := dt.year.toNat
  ⟨[digitChar (y / 1000 % 10), digitChar (y / 100 % 10),
    digitChar (y / 10 % 10), digitChar (y % 10), '-',
    digitChar (dt.month / 10 % 10), digitChar (dt.month % 10), '-',
    digitChar (dt.day / 10 % 10), digitChar (dt.day % 10)]⟩

/-- `parseDateArg` from fantastical.go. -/
def parseDateArg (now : GoTime) (s : String) : Except CLIError GoTime :=
  let s := trimSpace s
  if s = "" then .error ⟨true, "empty date"⟩
  else if lowerStr s = "today" then .ok (midnight now)
  else if lowerStr s = "tomorrow" then .ok (midnight (goAddDate now 1))
  else if lowerStr s = "yesterday" then .ok (midnight (goAddDate now (-1)))
  else
    match parseYMD s with
    | some d => .ok ⟨d, 0⟩
    | none => .error ⟨true, "invalid date " ++ s ++ "; want yyyy-mm-dd or today/tomorrow/yesterday"⟩

/-! ## Sentence and parameter helpers (fantastical.go) -/

/-- `readSentence` from fantastical.go: with `--stdin` the sentence is the
trimmed standard input (and positional arguments are rejected); otherwise the
trimmed space-join of the positional arguments. -/
def readSentence (args : List String) (fromStdin : Bool) (stdinData : String) :
    Except CLIError String :=
  if fromStdin then
    if args ≠ [] then .error ⟨true, "cannot use args with --stdin"⟩
    else
      let sentence := trimSpace stdinData
      if sentence = "" then .error ⟨true, "empty stdin"⟩ else .ok sentence
  else
    let sentence := trimSpace (String.intercalate " " args)
    if sentence = "" then .error ⟨true, "missing <sentence...>"⟩ else .ok sentence

/-- `strings.SplitN(raw, "=", 2)`: the part before the first `'='` and,
when a `'='` occurs, the rest. -/
def splitEq : List Char → List Char × Option (List Char)
  | [] => ([], none)
  | c :: cs =>
    if c = '=' then ([], some cs)
    else
      let r := splitEq cs
      (c :: r.1, r.2)

/-- `parseParams` from fantastical.go: each repeated `--param key=value`
is added to a `url.Values`; blank entries are skipped; a blank key is a
usage error. -/
def parseParams (params : List String) : Except CLIError Values :=
  params.foldlM (fun q raw =>
    if trimSpace raw = "" then .ok q
    else
      let parts := splitEq raw.data
      let key := trimSpace ⟨parts.1⟩
      if key = "" then .error ⟨true, "invalid param " ++ raw ++ " (want key=value)"⟩
      else
        let value := match parts.2 with
          | some rest => trimSpace ⟨rest⟩
          | none => ""
        .ok (valuesAdd key value q)) []

/-! ## The parse / show / applescript command pipelines

Each command is modelled from the point where its flags have been parsed
(the `opts` struct is fully resolved).  The observable side effects — stdout
records, clipboard writes, URL opens, osascript runs — are collected as an
event trace, paired with the error result.  External subprocesses
(`pbcopy`, `open`, `osascript`) are modelled as succeeding; their failures
only cut the trace short after the corresponding event, which none of the
claims below depend on. -/

inductive Event where
  | jsonOut (url : String)
  | urlLine (url : String)
  | fallbackLine (url : String)
  | copyClip (text : String)
  | openCmd (url : String)
  | printScript (script : String)
  | runOsascript (args : List String)
  deriving Repr, DecidableEq

/-- The stdout output records of parse/show: the JSON payload, the plain URL
line, or the final fallback line. -/
def Event.isStdoutRecord : Event → Bool
  | .jsonOut _ => true
  | .urlLine _ => true
  | .fallbackLine _ => true
  | _ => false

/-- The dry-run adjustment of `cmdParse`/`cmdShow`: disable open and copy. -/
def postDryRun (o : OutputOptions) : OutputOptions :=
  if o.dryRun then { o with open_ := false, copy := false } else o

/-- The output/copy/open/fallback tail shared by `cmdParse` and `cmdShow`
(lines 437–470 and 602–635 of fantastical.go), driven by the post-dry-run
options. -/
def outputTail (o : OutputOptions) (u : String) : List Event :=
  let outEvts : List Event :=
    if o.json then [.jsonOut u]
    else if o.print ∨ o.plain ∨ (¬ o.open_ ∧ ¬ o.copy) then [.urlLine u]
    else []
  let didOutput : Bool := outEvts ≠ []
  let copyEvts : List Event := if o.copy then [.copyClip u] else []
  let openEvts : List Event := if o.open_ then [.openCmd u] else []
  let fallback : List Event :=
    if ¬ didOutput ∧ ¬ o.open_ ∧ ¬ o.copy then [.fallbackLine u] else []
  outEvts ++ copyEvts ++ openEvts ++ fallback

/-- `cmdParse` from the point its flag set has been parsed. -/
def cmdParseCore (opts : ParseOptions) (args : List String) (stdinData : String) :
    List Event × Option CLIError :=
  if opts.out.json ∧ opts.out.plain then
    ([], some ⟨true, "--json and --plain are mutually exclusive"⟩)
  else
    match readSentence args opts.stdin stdinData with
    | .error e => ([], some e)
    | .ok sentence =>
      match parseParams opts.params with
      | .error e => ([], some e)
      | .ok extra0 =>
        let extra := if trimSpace opts.timezone ≠ "" then
          valuesSet "tz" (trimSpace opts.timezone) extra0 else extra0
        let u := buildParseURL sentence opts.note opts.calendar opts.add extra
        (outputTail (postDryRun opts.out) u, none)

/-- The options of the `show` command. -/
structure ShowOptions where
  out    : OutputOptions := {}
  params : List String := []
  view   : String := ""
  set    : String := ""
  tz     : String := ""
  deriving Repr, DecidableEq

/-- The URL construction of `cmdShow` (lines 553–592 of fantastical.go):
either the calendar-set URL, or a view URL with an optional date segment and
a query suffix only when extra parameters are present.  Returns the URL and
the resolved view name. -/
def showBuildURL (now : GoTime) (setName view : String) (rest : List String)
    (extra : Values) : Except CLIError (String × String) :=
  let sub := lowerStr (trimSpace view)
  if trimSpace setName ≠ "" then
    if rest ≠ [] ∨ sub ≠ "" then
      .error ⟨true, "cannot combine --calendar-set with positional view arguments"⟩
    else
      let name := trimSpace setName
      let q := extra.foldl addAll (valuesSet "name" name ([] : Values))
      .ok (fantasticalScheme ++ "show/set?" ++ encodeQuery q, sub)
  else
    let subRest : Except CLIError (String × List String) :=
      if sub = "" then
        match rest with
        | [] => .error ⟨true, "missing view"⟩
        | r0 :: rest2 => .ok (lowerStr r0, rest2)
      else .ok (sub, rest)
    match subRest with
    | .error e => .error e
    | .ok (sub, rest) =>
      if rest.length > 1 then
        .error ⟨true, "too many args for " ++ sub⟩
      else
        let u := fantasticalScheme ++ "show/" ++ sub
        let du : Except CLIError String :=
          match rest with
          | [d0] =>
            match parseDateArg now d0 with
            | .error e => .error e
            | .ok t => .ok (u ++ "/" ++ formatYMD t.date)
          | _ => .ok u
        match du with
        | .error e => .error e
        | .ok u =>
          let u := if extra ≠ ([] : Values) then u ++ "?" ++ encodeQuery extra else u
          .ok (u, sub)

/-- `cmdShow` from the point its flag set has been parsed. -/
def cmdShowCore (now : GoTime) (opts : ShowOptions) (rest : List String) :
    List Event × Option CLIError :=
  if opts.out.json ∧ opts.out.plain then
    ([], some ⟨true, "--json and --plain are mutually exclusive"⟩)
  else
    match parseParams opts.params with
    | .error e => ([], some e)
    | .ok extra0 =>
      let extra := if trimSpace opts.tz ≠ "" then
        valuesSet "tz" (trimSpace opts.tz) extra0 else extra0
      match showBuildURL now opts.set opts.view rest extra with
      | .error e => ([], some e)
      | .ok (u, _) => (outputTail (postDryRun opts.out) u, none)

/-- The fixed AppleScript program of `cmdAppleScript` (a constant: user input
never appears in the script text). -/
def scriptLines : List String :=
  ["on run argv",
   "set theSentence to item 1 of argv",
   "set addImmediately to false",
   "if (count of argv) > 1 then",
   "set addImmediately to (item 2 of argv is \"1\")",
   "end if",
   "tell application \"Fantastical\"",
   "if addImmediately then",
   "parse sentence theSentence with add immediately",
   "else",
   "parse sentence theSentence",
   "end if",
   "end tell",
   "end run"]

/-- The argument vector handed to osascript: `-e` once per script line, then
`--`, then the sentence and the add flag as data arguments. -/
def osascriptArgs (sentence : String) (add : Bool) : List String :=
  scriptLines.flatMap (fun line => ["-e", line]) ++
    ["--", sentence, if add then "1" else "0"]

/-- `cmdAppleScript` from the point its flag set has been parsed. -/
def cmdAppleScriptCore (opts : AppleScriptOptions) (args : List String) (stdinData : String) :
    List Event × Option CLIError :=
  let o := if opts.dryRun then { opts with run := false, print := true } else opts
  match readSentence args o.stdin stdinData with
  | .error e => ([], some e)
  | .ok sentence =>
    let printEvts : List Event :=
      if o.print ∨ ¬ o.run then [.printScript (String.intercalate "\n" scriptLines)] else []
    if ¬ o.run then (printEvts, none)
    else (printEvts ++ [.runOsascript (osascriptArgs sentence o.add)], none)

/-! ## EventKit (eventkit.go) -/

/-- `resolveEventKitFormat` from eventkit.go. -/
def resolveEventKitFormat (format : String) (json plain : Bool) (allowed : List String) :
    Except CLIError String :=
  if format ≠ "" then
    if json ∨ plain then .error ⟨true, "cannot combine --format with --json/--plain"⟩
    else
      let f := lowerStr (trimSpace format)
      if allowed.contains f then .ok f
      else .error ⟨true, "invalid --format " ++ f⟩
  else if json ∧ plain then .error ⟨true, "--json and --plain are mutually exclusive"⟩
  else if json then .ok "json"
  else if plain then .ok "plain"
  else if allowed.contains "plain" then .ok "plain"
  else .ok "json"

structure EventKitStatusOptions where
  format : String := ""
  json : Bool := false
  plain : Bool := false
  deriving Repr, DecidableEq

structure EventKitCalendarsOptions where
  format : String := ""
  json : Bool := false
  plain : Bool := false
  noInput : Bool := false
  deriving Repr, DecidableEq

structure EventKitEventsOptions where
  format : String := ""
  json : Bool := false
  plain : Bool := false
  noInput : Bool := false
  calendars : List String := []
  calendarIDs : List String := []
  from_ : String := ""
  to_ : String := ""
  days : Int := 0
  today : Bool := false
  tomorrow : Bool := false
  thisWeek : Bool := false
  nextWeek : Bool := false
  limit : Int := 0
  includeAllDay : Bool := true
  includeDeclined : Bool := false
  sort : String := "start"
  timezone : String := ""
  query : String := ""
  deriving Repr, DecidableEq

/-- `cmdEventKitStatus` after flag parsing: the helper argument vector, or an
error before any helper invocation. -/
def cmdEventKitStatusCore (opts : EventKitStatusOptions) :
    Option (List String) × Option CLIError :=
  match resolveEventKitFormat opts.format opts.json opts.plain ["plain", "json"] with
  | .error e => (none, some e)
  | .ok f => (some ["status", "--format", f], none)

/-- `cmdEventKitCalendars` after flag parsing. -/
def cmdEventKitCalendarsCore (opts : EventKitCalendarsOptions) :
    Option (List String) × Option CLIError :=
  match resolveEventKitFormat opts.format opts.json opts.plain ["plain", "json", "table"] with
  | .error e => (none, some e)
  | .ok f =>
    let args := ["calendars", "--format", f]
    let args := if opts.noInput then args ++ ["--no-input"] else args
    (some args, none)

/-- `cmdEventKitEvents` after flag parsing. -/
def cmdEventKitEventsCore (opts : EventKitEventsOptions) :
    Option (List String) × Option CLIError :=
  match resolveEventKitFormat opts.format opts.json opts.plain ["plain", "json", "table"] with
  | .error e => (none, some e)
  | .ok f =>
    let args := ["events", "--format", f]
    let args := if opts.noInput then args ++ ["--no-input"] else args
    let args := args ++ opts.calendars.flatMap (fun n => ["--calendar", n])
    let args := args ++ opts.calendarIDs.flatMap (fun i => ["--calendar-id", i])
    let args := if trimSpace opts.from_ ≠ "" then args ++ ["--from", trimSpace opts.from_] else args
    let args := if trimSpace opts.to_ ≠ "" then args ++ ["--to", trimSpace opts.to_] else args
    let args := if opts.days > 0 then args ++ ["--days", Nat.repr opts.days.toNat] else args
    let args := if opts.today then args ++ ["--today"] else args
    let args := if opts.tomorrow then args ++ ["--tomorrow"] else args
    let args := if opts.thisWeek then args ++ ["--this-week"] else args
    let args := if opts.nextWeek then args ++ ["--next-week"] else args
    let args := if opts.limit > 0 then args ++ ["--limit", Nat.repr opts.limit.toNat] else args
    let args := if ¬ opts.includeAllDay then args ++ ["--no-all-day"] else args
    let args := if opts.includeDeclined then args ++ ["--include-declined"] else args
    let args := if trimSpace opts.sort ≠ "" then args ++ ["--sort", trimSpace opts.sort] else args
    let args := if trimSpace opts.timezone ≠ "" then args ++ ["--tz", trimSpace opts.timezone] else args
    let args := if trimSpace opts.query ≠ "" then args ++ ["--query", trimSpace opts.query] else args
    (some args, none)

/-! ## EventKit helper compile-and-cache (ensureEventKitHelper)

The cache directory is modelled as a record: `binary` holds the source text
the cached helper binary was compiled from (when it exists), `hashFile` the
raw content of `eventkit-helper.hash`, `sourceFile` the written Swift source.
The hash `hex(sha256(src)[:8])` is abstracted as a function parameter `h`. -/

structure HelperCache where
  binary : Option String := none
  hashFile : Option String := none
  sourceFile : Option String := none
  deriving Repr, DecidableEq

/-- `ensureEventKitHelper` from eventkit.go: reuse the cached binary exactly
when it exists and the stored hash matches the current source hash; otherwise
write the source, recompile (`compileOk` abstracts the swiftc outcome) and
record the new hash.  The returned flag is `true` when a recompilation
happened. -/
def ensureEventKitHelper (h : String → String) (srcText : String) (compileOk : Bool)
    (st : HelperCache) : Except String (HelperCache × Bool) :=
  let hashStr := h srcText
  let cacheHit : Bool := st.binary.isSome &&
    (match st.hashFile with
     | some current => trimSpace current = hashStr
     | none => false)
  if cacheHit then .ok (st, false)
  else
    let st := { st with sourceFile := some srcText }
    if compileOk then
      .ok ({ st with binary := some srcText, hashFile := some (hashStr ++ "\n") }, true)
    else .error "eventkit helper build failed"

/-! ## Top-level dispatcher (run) -/

/-- The commands `run` dispatches to a subcommand handler that may return an
error. -/
def knownCommands : List String :=
  ["parse", "show", "applescript", "as", "validate", "doctor", "eventkit",
   "greta", "explain", "man", "completion", "help", "-h", "--help"]

/-- `run` from fantastical.go: the exit code and the stderr lines.  The
subcommand bodies are abstracted as `dispatch`; `run` forwards their error
unchanged.  `version` prints to stdout and never errors. -/
def run (dispatch : String → List String → Option CLIError) (args : List String) :
    Nat × List String :=
  if args.length < 2 then (2, ["usage"])
  else
    let cmd := lowerStr (args.getD 1 "")
    if cmd = "version" ∨ cmd = "--version" then (0, [])
    else if knownCommands.contains cmd then
      match dispatch cmd (args.drop 2) with
      | none => (0, [])
      | some e => ((if e.usage then 2 else 1), ["Error: " ++ e.msg])
    else (2, ["Unknown command: " ++ cmd, "usage"])

/-! ## Helper lemmas -/

theorem outputTail_no_fallback (o : OutputOptions) (u v : String) :
    Event.fallbackLine v ∉ outputTail o u := by
  unfold outputTail
  by_cases hj : o.json <;> by_cases hpr : o.print ∨ o.plain ∨ (¬ o.open_ ∧ ¬ o.copy) <;>
    by_cases hc : o.copy <;> by_cases ho : o.open_ <;>
    simp [hj, hpr, hc, ho]

theorem outputTail_one_record (o : OutputOptions) (u : String)
    (ho : o.open_ = false) (hc : o.copy = false) :
    ((outputTail o u).filter Event.isStdoutRecord).length = 1 := by
  unfold outputTail
  by_cases hj : o.json <;> simp [hj, ho, hc, Event.isStdoutRecord]

theorem outputTail_dry_no_side_effects (o : OutputOptions) (h : o.dryRun = true) (u v : String) :
    Event.copyClip v ∉ outputTail (postDryRun o) u ∧
      Event.openCmd v ∉ outputTail (postDryRun o) u := by
  unfold outputTail postDryRun
  by_cases hj : o.json <;> simp [h, hj]

theorem dropWhile_idem (p : Char → Bool) (l : List Char) :
    (l.dropWhile p).dropWhile p = l.dropWhile p := by
  induction l with
  | nil => rfl
  | cons a t ih =>
    by_cases h : p a
    · simp only [List.dropWhile_cons, h, if_true]
      exact ih
    · simp [List.dropWhile_cons, h]

theorem trimRightList_head (p : Char → Bool) (a : Char) (t : List Char) :
    trimRightList p (a :: t) = [] ∨ ∃ r, trimRightList p (a :: t) = a :: r := by
  unfold trimRightList
  rcases htr : trimRightList p t with _ | ⟨b, u⟩
  · by_cases h : p a
    · left
      simp [h]
    · right
      exact ⟨[], by simp [h]⟩
  · right
    exact ⟨b :: u, rfl⟩

theorem trimRightList_idem (p : Char → Bool) (l : List Char) :
    trimRightList p (trimRightList p l) = trimRightList p l := by
  induction l with
  | nil => rfl
  | cons a t ih =>
    rcases htr : trimRightList p t with _ | ⟨b, u⟩
    · have h1 : trimRightList p (a :: t) = if p a then [] else [a] := by
        unfold trimRightList
        rw [htr]
      by_cases h : p a
      · rw [h1, if_pos h]
        rfl
      · rw [h1, if_neg h]
        show trimRightList p [a] = [a]
        unfold trimRightList
        simp [trimRightList, h]
    · have h1 : trimRightList p (a :: t) = a :: b :: u := by
        unfold trimRightList
        rw [htr]
      rw [htr] at ih
      rw [h1]
      show trimRightList p (a :: b :: u) = a :: b :: u
      unfold trimRightList
      rw [show trimRightList p (b :: u) = b :: u from ih]

theorem dropWhile_trimRightList (p : Char → Bool) (l : List Char)
    (h : l.dropWhile p = l) : (trimRightList p l).dropWhile p = trimRightList p l := by
  cases l with
  | nil => rfl
  | cons a t =>
    have ha : p a = false := by
      by_contra hcon
      have hpa : p a = true := by
        rcases hx : p a with _ | _
        · exact absurd hx hcon
        · rfl
      rw [List.dropWhile_cons, hpa] at h
      simp only [if_true] at h
      have hlen := (List.dropWhile_sublist (l := t) p).length_le
      have h2 := congrArg List.length h
      simp at h2
      omega
    rcases trimRightList_head p a t with hnil | ⟨r, hr⟩
    · rw [hnil]
      rfl
    · rw [hr]
      simp [List.dropWhile_cons, ha]

theorem trimSpace_idem (s : String) : trimSpace (trimSpace s) = trimSpace s := by
  show (⟨trimRightList isSpaceChar ((trimRightList isSpaceChar
      (s.data.dropWhile isSpaceChar)).dropWhile isSpaceChar)⟩ : String) = _
  rw [dropWhile_trimRightList isSpaceChar _ (dropWhile_idem isSpaceChar s.data),
    trimRightList_idem]
  rfl

theorem trimSpace_empty : trimSpace "" = "" := rfl

theorem envString_some {env : Env} {k v : String} (h : envString env k = some v) :
    trimSpace v = v ∧ v ≠ "" := by
  simp only [envString] at h
  by_cases hz : trimSpace (env k) = ""
  · rw [if_pos hz] at h
    exact absurd h (by simp)
  · rw [if_neg hz] at h
    have hv := Option.some.inj h
    subst hv
    exact ⟨trimSpace_idem (env k), hz⟩

theorem or_getD {α : Type} (a b : Option α) (d : α) :
    (a.or b).getD d = a.getD (b.getD d) := by
  cases a <;> rfl

theorem strDefault (e : Option String) (m : String)
    (he : ∀ v, e = some v → trimSpace v = v ∧ v ≠ "")
    (hm : m = "" ∨ trimSpace m ≠ "") :
    (if trimSpace (e.getD m) ≠ "" then e.getD m else "") = e.getD m := by
  cases e with
  | some v =>
    obtain ⟨h1, h2⟩ := he v rfl
    simp only [Option.getD_some]
    rw [h1]
    simp [h2]
  | none =>
    simp only [Option.getD_none]
    rcases hm with hm | hm
    · subst hm
      simp [trimSpace_empty]
    · simp [hm]

theorem digitVal_lt {c : Char} (h : isDigitChar c = true) : digitVal c < 10 := by
  unfold isDigitChar at h
  simp only [Bool.and_eq_true, decide_eq_true_eq] at h
  unfold digitVal
  omega

theorem charEq_of_toNat {a b : Char} (h : a.toNat = b.toNat) : a = b := by
  have h1 := Char.ofNat_toNat a
  have h2 := Char.ofNat_toNat b
  rw [← h1, ← h2, h]

theorem digitChar_toNat {n : Nat} (h : n < 10) : (digitChar n).toNat = 48 + n := by
  interval_cases n <;> decide

theorem digitChar_digitVal {c : Char} (h : isDigitChar c = true) : digitChar (digitVal c) = c := by
  have hb : 48 ≤ c.toNat ∧ c.toNat ≤ 57 := by
    unfold isDigitChar at h
    simpa using h
  apply charEq_of_toNat
  rw [digitChar_toNat (by unfold digitVal; omega)]
  unfold digitVal
  omega

theorem isDigitChar_digitChar {n : Nat} (h : n < 10) : isDigitChar (digitChar n) = true := by
  interval_cases n <;> decide

theorem digitVal_digitChar {n : Nat} (h : n < 10) : digitVal (digitChar n) = n := by
  interval_cases n <;> decide

theorem daysInMonth_pos (y : Int) (m : Nat) : 1 ≤ daysInMonth y m := by
  unfold daysInMonth
  split <;> first | omega | (split <;> omega)

theorem daysInMonth_le (y : Int) (m : Nat) : daysInMonth y m ≤ 31 := by
  unfold daysInMonth
  split <;> first | omega | (split <;> omega)

theorem parseYMD_sound {s : String} {dt : Date} (h : parseYMD s = some dt) :
    ValidDate dt ∧ 0 ≤ dt.year ∧ dt.year ≤ 9999 ∧ formatYMD dt = s := by
  unfold parseYMD at h
  split at h
  case h_2 => exact absurd h (by simp)
  case h_1 y1 y2 y3 y4 h1 m1 m2 h2 d1 d2 heq =>
    split at h
    case isFalse => exact absurd h (by simp)
    case isTrue hguard =>
      split at h
      case isFalse => exact absurd h (by simp)
      case isTrue hrange =>
        have hdt := Option.some.inj h
        simp only [Bool.and_eq_true, decide_eq_true_eq] at hguard
        obtain ⟨⟨⟨⟨⟨⟨⟨⟨⟨hy1, hy2⟩, hy3⟩, hy4⟩, hh1⟩, hm1⟩, hm2⟩, hh2⟩, hd1⟩, hd2⟩ := hguard
        obtain ⟨hr1, hr2, hr3, hr4⟩ := hrange
        have hv1 := digitVal_lt hy1
        have hv2 := digitVal_lt hy2
        have hv3 := digitVal_lt hy3
        have hv4 := digitVal_lt hy4
        have hw1 := digitVal_lt hm1
        have hw2 := digitVal_lt hm2
        have hx1 := digitVal_lt hd1
        have hx2 := digitVal_lt hd2
        subst hdt
        refine ⟨⟨hr1, hr2, hr3, hr4⟩, by simp only [Int.ofNat_eq_coe]; omega, ?_, ?_⟩
        · simp only [Int.ofNat_eq_coe]
          omega
        · apply String.ext
          rw [heq]
          unfold formatYMD
          simp only [Int.ofNat_eq_coe, Int.toNat_natCast]
          rw [show (1000 * digitVal y1 + 100 * digitVal y2 + 10 * digitVal y3 + digitVal y4)
                / 1000 % 10 = digitVal y1 by omega,
            show (1000 * digitVal y1 + 100 * digitVal y2 + 10 * digitVal y3 + digitVal y4)
                / 100 % 10 = digitVal y2 by omega,
            show (1000 * digitVal y1 + 100 * digitVal y2 + 10 * digitVal y3 + digitVal y4)
                / 10 % 10 = digitVal y3 by omega,
            show (1000 * digitVal y1 + 100 * digitVal y2 + 10 * digitVal y3 + digitVal y4)
                % 10 = digitVal y4 by omega,
            show (10 * digitVal m1 + digitVal m2) / 10 % 10 = digitVal m1 by omega,
            show (10 * digitVal m1 + digitVal m2) % 10 = digitVal m2 by omega,
            show (10 * digitVal d1 + digitVal d2) / 10 % 10 = digitVal d1 by omega,
            show (10 * digitVal d1 + digitVal d2) % 10 = digitVal d2 by omega,
            digitChar_digitVal hy1, digitChar_digitVal hy2, digitChar_digitVal hy3,
            digitChar_digitVal hy4, digitChar_digitVal hm1, digitChar_digitVal hm2,
            digitChar_digitVal hd1, digitChar_digitVal hd2, hh1, hh2]

theorem parseYMD_complete {dt : Date} (hv : ValidDate dt) (h2 : 0 ≤ dt.year)
    (h3 : dt.year ≤ 9999) : parseYMD (formatYMD dt) = some dt := by
  obtain ⟨hm1, hm2, hd1, hd2⟩ := hv
  have hdle : dt.day ≤ 31 := le_trans hd2 (daysInMonth_le _ _)
  have hy9 : dt.year.toNat ≤ 9999 := by omega
  have q1 : dt.year.toNat / 1000 % 10 < 10 := Nat.mod_lt _ (by omega)
  have q2 : dt.year.toNat / 100 % 10 < 10 := Nat.mod_lt _ (by omega)
  have q3 : dt.year.toNat / 10 % 10 < 10 := Nat.mod_lt _ (by omega)
  have q4 : dt.year.toNat % 10 < 10 := Nat.mod_lt _ (by omega)
  have q5 : dt.month / 10 % 10 < 10 := Nat.mod_lt _ (by omega)
  have q6 : dt.month % 10 < 10 := Nat.mod_lt _ (by omega)
  have q7 : dt.day / 10 % 10 < 10 := Nat.mod_lt _ (by omega)
  have q8 : dt.day % 10 < 10 := Nat.mod_lt _ (by omega)
  unfold parseYMD formatYMD
  simp only [Int.ofNat_eq_coe]
  rw [if_pos (by
    simp only [Bool.and_eq_true, decide_eq_true_eq]
    refine ⟨⟨⟨⟨⟨⟨⟨⟨⟨isDigitChar_digitChar q1, isDigitChar_digitChar q2⟩,
      isDigitChar_digitChar q3⟩, isDigitChar_digitChar q4⟩, trivial⟩,
      isDigitChar_digitChar q5⟩, isDigitChar_digitChar q6⟩, trivial⟩,
      isDigitChar_digitChar q7⟩, isDigitChar_digitChar q8⟩)]
  rw [digitVal_digitChar q1, digitVal_digitChar q2, digitVal_digitChar q3,
    digitVal_digitChar q4, digitVal_digitChar q5, digitVal_digitChar q6,
    digitVal_digitChar q7, digitVal_digitChar q8]
  have hyrec : 1000 * (dt.year.toNat / 1000 % 10) + 100 * (dt.year.toNat / 100 % 10)
      + 10 * (dt.year.toNat / 10 % 10) + dt.year.toNat % 10 = dt.year.toNat := by omega
  have hmrec : 10 * (dt.month / 10 % 10) + dt.month % 10 = dt.month := by omega
  have hdrec : 10 * (dt.day / 10 % 10) + dt.day % 10 = dt.day := by omega
  rw [hyrec, hmrec, hdrec]
  have hycast : (dt.year.toNat : Int) = dt.year := Int.toNat_of_nonneg h2
  rw [if_pos (by rw [hycast]; exact ⟨hm1, hm2, hd1, hd2⟩)]
  rw [Option.some.injEq, hycast]

theorem fixDate_succ (fuel : Nat) (y m d : Int) :
    fixDate (fuel + 1) y m d =
      if m < 1 then fixDate fuel (y - 1) (m + 12) d
      else if m > 12 then fixDate fuel (y + 1) (m - 12) d
      else if d < 1 then
        fixDate fuel (if m = 1 then y - 1 else y) (if m = 1 then 12 else m - 1)
          (d + daysInMonth (if m = 1 then y - 1 else y) (if m = 1 then 12 else m - 1).toNat)
      else if d > daysInMonth y m.toNat then fixDate fuel y (m + 1) (d - daysInMonth y m.toNat)
      else ⟨y, m.toNat, d.toNat⟩ := rfl

theorem addDays_one {d : Date} (h : ValidDate d) :
    addDays d 1 =
      if d.day < daysInMonth d.year d.month then ⟨d.year, d.month, d.day + 1⟩
      else if d.month < 12 then ⟨d.year, d.month + 1, 1⟩
      else ⟨d.year + 1, 1, 1⟩ := by
  obtain ⟨h1, h2, h3, h4⟩ := h
  unfold addDays
  rw [show (50 : Nat) = 49 + 1 from rfl, fixDate_succ]
  simp only [Int.toNat_natCast]
  rw [if_neg (by omega), if_neg (by omega), if_neg (by omega)]
  by_cases hlt : d.day < daysInMonth d.year d.month
  · rw [if_neg (by omega), if_pos hlt, Date.mk.injEq]
    exact ⟨rfl, by omega, by omega⟩
  · rw [if_pos (by omega)]
    rw [show ((d.day : Int) + 1 - (daysInMonth d.year d.month : Int)) = 1 by omega]
    rw [show (49 : Nat) = 48 + 1 from rfl, fixDate_succ]
    by_cases hm : d.month < 12
    · have hpos := daysInMonth_pos d.year (((d.month : Int) + 1).toNat)
      rw [if_neg (by omega), if_neg (by omega), if_neg (by omega), if_neg (by omega),
        if_neg hlt, if_pos hm, Date.mk.injEq]
      exact ⟨rfl, by omega, by omega⟩
    · rw [if_neg (by omega), if_pos (by omega)]
      rw [show ((d.month : Int) + 1 - 12) = 1 by omega]
      rw [show (48 : Nat) = 47 + 1 from rfl, fixDate_succ]
      have hpos := daysInMonth_pos (d.year + 1) ((1 : Int)).toNat
      rw [if_neg (by omega), if_neg (by omega), if_neg (by omega), if_neg (by omega),
        if_neg hlt, if_neg hm, Date.mk.injEq]
      exact ⟨rfl, by omega, by omega⟩

theorem addDays_neg_one {d : Date} (h : ValidDate d) :
    addDays d (-1) =
      if 1 < d.day then ⟨d.year, d.month, d.day - 1⟩
      else if 1 < d.month then
        ⟨d.year, d.month - 1, daysInMonth d.year (d.month - 1)⟩
      else ⟨d.year - 1, 12, 31⟩ := by
  obtain ⟨h1, h2, h3, h4⟩ := h
  have hdim := daysInMonth_le d.year d.month
  unfold addDays
  rw [show (50 : Nat) = 49 + 1 from rfl, fixDate_succ]
  simp only [Int.toNat_natCast]
  rw [if_neg (by omega), if_neg (by omega)]
  by_cases hd : 1 < d.day
  · rw [if_neg (by omega), if_neg (by omega), if_pos hd, Date.mk.injEq]
    exact ⟨rfl, by omega, by omega⟩
  · rw [if_pos (by omega)]
    by_cases hm : 1 < d.month
    · have hne : ¬((d.month : Int) = 1) := by omega
      simp only [if_neg hne]
      rw [show (((d.month : Int) - 1)).toNat = d.month - 1 by omega]
      rw [show ((d.day : Int) + -1 + (daysInMonth d.year (d.month - 1) : Int))
          = (daysInMonth d.year (d.month - 1) : Int) by omega]
      rw [show (49 : Nat) = 48 + 1 from rfl, fixDate_succ]
      have hpos := daysInMonth_pos d.year (d.month - 1)
      have hle2 := daysInMonth_le d.year (d.month - 1)
      rw [show (((d.month : Int) - 1)).toNat = d.month - 1 by omega]
      rw [if_neg (by omega), if_neg (by omega), if_neg (by omega), if_neg (by omega),
        if_neg hd, if_pos hm, Date.mk.injEq]
      exact ⟨rfl, by omega, by omega⟩
    · have hme : ((d.month : Int)) = 1 := by omega
      rw [hme]
      rw [if_pos (rfl : ((1 : Int)) = 1), if_pos (rfl : ((1 : Int)) = 1)]
      rw [show (((12 : Int))).toNat = 12 from rfl]
      rw [show daysInMonth (d.year - 1) 12 = 31 from rfl]
      rw [show ((d.day : Int) + -1 + ((31 : Nat) : Int)) = ((31 : Nat) : Int) by omega]
      rw [show (49 : Nat) = 48 + 1 from rfl, fixDate_succ]
      rw [show (((12 : Int))).toNat = 12 from rfl]
      rw [show daysInMonth (d.year - 1) 12 = 31 from rfl]
      rw [if_neg (by omega), if_neg (by omega), if_neg (by omega), if_neg (by omega),
        if_neg hd, if_neg hm, Date.mk.injEq]
      exact ⟨rfl, by omega, by omega⟩

theorem mergeConfig_empty_right (dst : Config) : mergeConfig dst {} = dst := by
  simp [mergeConfig, trimSpace_empty, Option.none_or]

theorem loadConfig_getD (env : Env) (userCfg projectCfg : Option Config) :
    loadConfig env userCfg projectCfg =
      applyEnvOverrides env
        (mergeConfig (mergeConfig {} (userCfg.getD {})) (projectCfg.getD {})) := by
  cases userCfg <;> cases projectCfg <;>
    simp [loadConfig, mergeConfig_empty_right]

theorem charListLe_total : ∀ (a b : List Char),
    charListLe a b = true ∨ charListLe b a = true
  | [], _ => Or.inl rfl
  | _ :: _, [] => Or.inr rfl
  | a :: as, b :: bs => by
    by_cases hab : a = b
    · subst hab
      unfold charListLe
      rw [if_pos rfl, if_pos rfl]
      exact charListLe_total as bs
    · unfold charListLe
      rw [if_neg hab, if_neg (fun h => hab h.symm)]
      rcases lt_or_gt_of_ne hab with h | h
      · exact Or.inl (decide_eq_true h)
      · exact Or.inr (decide_eq_true h)

theorem charListLe_trans : ∀ (a b c : List Char),
    charListLe a b = true → charListLe b c = true → charListLe a c = true
  | [], _, _ => fun _ _ => rfl
  | _ :: _, [], _ => fun h _ => absurd h (by simp [charListLe])
  | _ :: _, _ :: _, [] => fun _ h => absurd h (by simp [charListLe])
  | a :: as, b :: bs, c :: cs => by
    intro h1 h2
    unfold charListLe at h1 h2 ⊢
    by_cases hab : a = b <;> by_cases hbc : b = c
    · subst hab
      subst hbc
      rw [if_pos rfl] at h1 h2 ⊢
      exact charListLe_trans as bs cs h1 h2
    · subst hab
      rw [if_pos rfl] at h1
      rw [if_neg hbc] at h2 ⊢
      exact h2
    · subst hbc
      rw [if_neg hab] at h1 ⊢
      exact h1
    · rw [if_neg hab] at h1
      rw [if_neg hbc] at h2
      have hlt : a < c := lt_trans (of_decide_eq_true h1) (of_decide_eq_true h2)
      rw [if_neg (ne_of_lt hlt)]
      exact decide_eq_true hlt

theorem charListLe_antisymm : ∀ (a b : List Char),
    charListLe a b = true → charListLe b a = true → a = b
  | [], [] => fun _ _ => rfl
  | [], _ :: _ => fun _ h => absurd h (by simp [charListLe])
  | _ :: _, [] => fun h _ => absurd h (by simp [charListLe])
  | a :: as, b :: bs => by
    intro h1 h2
    by_cases hab : a = b
    · subst hab
      unfold charListLe at h1 h2
      rw [if_pos rfl] at h1 h2
      rw [charListLe_antisymm as bs h1 h2]
    · unfold charListLe at h1 h2
      rw [if_neg hab] at h1
      rw [if_neg (fun h => hab h.symm)] at h2
      exact absurd (of_decide_eq_true h2) (lt_asymm (of_decide_eq_true h1))

instance : IsTotal String (fun a b => strLeB a b = true) :=
  ⟨fun a b => charListLe_total a.data b.data⟩

instance : IsTrans String (fun a b => strLeB a b = true) :=
  ⟨fun a b c => charListLe_trans a.data b.data c.data⟩

instance : IsAntisymm String (fun a b => strLeB a b = true) :=
  ⟨fun a b h1 h2 => String.ext (charListLe_antisymm a.data b.data h1 h2)⟩

theorem sortStrings_eq_of_perm {l1 l2 : List String} (h : l1.Perm l2) :
    sortStrings l1 = sortStrings l2 := by
  apply List.eq_of_perm_of_sorted (r := fun a b => strLeB a b = true)
  · exact (List.perm_insertionSort _ l1).trans (h.trans (List.perm_insertionSort _ l2).symm)
  · exact List.sorted_insertionSort _ l1
  · exact List.sorted_insertionSort _ l2

theorem valsFor_valuesAdd (k k2 v : String) (q : Values) :
    valsFor k (valuesAdd k2 v q) = if k2 = k then valsFor k q ++ [v] else valsFor k q := by
  induction q with
  | nil => by_cases h : k2 = k <;> simp [valuesAdd, valsFor, h]
  | cons e rest ih =>
    obtain ⟨k3, vs⟩ := e
    by_cases h1 : k3 = k2
    · subst h1
      by_cases h2 : k3 = k
      · subst h2
        simp [valuesAdd, valsFor]
      · simp [valuesAdd, valsFor, h2]
    · by_cases h2 : k3 = k
      · subst h2
        have h3 : ¬(k2 = k3) := fun h => h1 h.symm
        simp [valuesAdd, valsFor, h1, h3]
      · simp [valuesAdd, valsFor, h1, h2, ih]

theorem keys_valuesAdd (k v : String) (q : Values) :
    (valuesAdd k v q).map Prod.fst =
      if k ∈ q.map Prod.fst then q.map Prod.fst else q.map Prod.fst ++ [k] := by
  induction q with
  | nil => simp [valuesAdd]
  | cons e rest ih =>
    obtain ⟨k3, vs⟩ := e
    by_cases h : k3 = k
    · subst h
      simp [valuesAdd]
    · by_cases hm : k ∈ rest.map Prod.fst <;>
        simp [valuesAdd, h, ih, hm, Ne.symm h]

theorem addAll_cons (q : Values) (k2 v : String) (vs : List String) :
    addAll q (k2, v :: vs) = addAll (valuesAdd k2 v q) (k2, vs) := rfl

theorem valsFor_addAll (k : String) (e : String × List String) : ∀ (q : Values),
    valsFor k (addAll q e) = if e.1 = k then valsFor k q ++ e.2 else valsFor k q := by
  obtain ⟨k2, vs⟩ := e
  induction vs with
  | nil =>
    intro q
    by_cases h : k2 = k <;> simp [addAll, h]
  | cons v vs ih =>
    intro q
    rw [addAll_cons, ih (valuesAdd k2 v q), valsFor_valuesAdd]
    by_cases h : k2 = k <;> simp [h]

theorem keys_addAll (e : String × List String) : ∀ (q : Values),
    (addAll q e).map Prod.fst =
      if e.2 = [] ∨ e.1 ∈ q.map Prod.fst then q.map Prod.fst
      else q.map Prod.fst ++ [e.1] := by
  obtain ⟨k2, vs⟩ := e
  induction vs with
  | nil =>
    intro q
    simp [addAll]
  | cons v vs ih =>
    intro q
    rw [addAll_cons, ih (valuesAdd k2 v q), keys_valuesAdd]
    by_cases hm : k2 ∈ q.map Prod.fst
    · simp [hm]
    · simp [hm, List.mem_append]

theorem foldl_addAll_congr (l : List (String × List String)) :
    ∀ (q1 q2 : Values), (q1.map Prod.fst).Perm (q2.map Prod.fst) →
      (∀ k, valsFor k q1 = valsFor k q2) →
      ((l.foldl addAll q1).map Prod.fst).Perm ((l.foldl addAll q2).map Prod.fst) ∧
        ∀ k, valsFor k (l.foldl addAll q1) = valsFor k (l.foldl addAll q2) := by
  induction l with
  | nil => exact fun q1 q2 hk hv => ⟨hk, hv⟩
  | cons e rest ih =>
    intro q1 q2 hk hv
    apply ih
    · rw [keys_addAll, keys_addAll]
      by_cases hc : e.2 = [] ∨ e.1 ∈ q1.map Prod.fst
      · rw [if_pos hc, if_pos (by
          rcases hc with hc | hc
          · exact Or.inl hc
          · exact Or.inr (hk.mem_iff.mp hc))]
        exact hk
      · rw [if_neg hc, if_neg (by
          intro hcon
          rcases hcon with hcon | hcon
          · exact hc (Or.inl hcon)
          · exact hc (Or.inr (hk.mem_iff.mpr hcon)))]
        exact hk.append_right [e.1]
    · intro k
      rw [valsFor_addAll, valsFor_addAll]
      by_cases hek : e.1 = k <;> simp [hek, hv k]

theorem keys_addAll_comm {x y : String × List String} (hxy : x.1 ≠ y.1) (q : Values) :
    ((addAll (addAll q y) x).map Prod.fst).Perm ((addAll (addAll q x) y).map Prod.fst) := by
  rw [keys_addAll, keys_addAll, keys_addAll, keys_addAll]
  by_cases hx0 : x.2 = [] <;> by_cases hy0 : y.2 = [] <;>
    by_cases hxm : x.1 ∈ q.map Prod.fst <;> by_cases hym : y.1 ∈ q.map Prod.fst <;>
    simp [hx0, hy0, hxm, hym, hxy, Ne.symm hxy, List.mem_append] <;>
    first
    | exact List.Perm.refl _
    | exact List.Perm.append_left _ (List.Perm.swap _ _ _)

theorem valsFor_addAll_comm {x y : String × List String} (hxy : x.1 ≠ y.1)
    (q : Values) (k : String) :
    valsFor k (addAll (addAll q y) x) = valsFor k (addAll (addAll q x) y) := by
  rw [valsFor_addAll, valsFor_addAll, valsFor_addAll, valsFor_addAll]
  by_cases hx : x.1 = k <;> by_cases hy : y.1 = k
  · exact absurd (hx.trans hy.symm) hxy
  · simp [hx, hy]
  · simp [hx, hy]
  · simp [hx, hy]

theorem foldl_addAll_perm {e1 e2 : List (String × List String)} (hperm : e1.Perm e2) :
    ∀ (q : Values), (e1.map Prod.fst).Nodup →
      ((e1.foldl addAll q).map Prod.fst).Perm ((e2.foldl addAll q).map Prod.fst) ∧
        ∀ k, valsFor k (e1.foldl addAll q) = valsFor k (e2.foldl addAll q) := by
  induction hperm with
  | nil => exact fun q _ => ⟨List.Perm.refl _, fun _ => rfl⟩
  | cons x h ih =>
    intro q hnd
    rw [List.map_cons, List.nodup_cons] at hnd
    exact ih (addAll q x) hnd.2
  | swap x y l =>
    intro q hnd
    simp only [List.map_cons, List.nodup_cons, List.mem_cons] at hnd
    have hxy : x.1 ≠ y.1 := fun h => hnd.1 (Or.inl h.symm)
    have hyx : y.1 ≠ x.1 := fun h => hxy h.symm
    exact foldl_addAll_congr l _ _ (keys_addAll_comm hxy q)
      (fun k => valsFor_addAll_comm hxy q k)
  | trans h1 h2 ih1 ih2 =>
    intro q hnd
    have hnd2 := (h1.map Prod.fst).nodup hnd
    exact ⟨(ih1 q hnd).1.trans (ih2 q hnd2).1,
      fun k => ((ih1 q hnd).2 k).trans ((ih2 q hnd2).2 k)⟩

theorem valsFor_perm {e1 e2 : Values} (hperm : e1.Perm e2) :
    (e1.map Prod.fst).Nodup → ∀ k, valsFor k e1 = valsFor k e2 := by
  induction hperm with
  | nil => exact fun _ _ => rfl
  | cons x h ih =>
    intro hnd k
    rw [List.map_cons, List.nodup_cons] at hnd
    show (if x.1 = k then x.2 else valsFor k _) = (if x.1 = k then x.2 else valsFor k _)
    by_cases hx : x.1 = k <;> simp [hx, ih hnd.2 k]
  | swap x y l =>
    intro hnd k
    simp only [List.map_cons, List.nodup_cons, List.mem_cons] at hnd
    have hxy : x.1 ≠ y.1 := fun h => hnd.1 (Or.inl h.symm)
    show (if y.1 = k then y.2 else if x.1 = k then x.2 else valsFor k l)
      = (if x.1 = k then x.2 else if y.1 = k then y.2 else valsFor k l)
    by_cases hx : x.1 = k <;> by_cases hy : y.1 = k
    · exact absurd (hx.trans hy.symm) hxy
    · simp [hx, hy]
    · simp [hx, hy]
    · simp [hx, hy]
  | trans h1 h2 ih1 ih2 =>
    intro hnd k
    exact (ih1 hnd k).trans (ih2 ((h1.map Prod.fst).nodup hnd) k)

theorem valuesEncodeL_congr {q1 q2 : Values}
    (hk : (q1.map Prod.fst).Perm (q2.map Prod.fst))
    (hv : ∀ k, valsFor k q1 = valsFor k q2) : valuesEncodeL q1 = valuesEncodeL q2 := by
  unfold valuesEncodeL
  rw [sortStrings_eq_of_perm hk]
  exact congrArg joinAmp (List.flatMap_congr (fun k _ => by rw [hv k]))

theorem plusTo20_append (l1 l2 : List Char) :
    plusTo20 (l1 ++ l2) = plusTo20 l1 ++ plusTo20 l2 := by
  induction l1 with
  | nil => rfl
  | cons c cs ih =>
    by_cases h : c = '+' <;> simp [plusTo20, h, ih]

theorem hexDigitUpper_ne_plus (n : Nat) : hexDigitUpper n ≠ '+' := by
  unfold hexDigitUpper
  split <;> decide

theorem plus_not_mem_plusTo20 (l : List Char) : '+' ∉ plusTo20 l := by
  induction l with
  | nil => simp [plusTo20]
  | cons c cs ih =>
    unfold plusTo20
    by_cases h : c = '+'
    · rw [if_pos h]
      simp only [List.mem_cons]
      rintro (hc | hc | hc | hc)
      · exact absurd hc (by decide)
      · exact absurd hc (by decide)
      · exact absurd hc (by decide)
      · exact ih hc
    · rw [if_neg h]
      simp only [List.mem_cons]
      rintro (hc | hc)
      · exact h hc.symm
      · exact ih hc

theorem plusTo20_eq_self {l : List Char} (h : '+' ∉ l) : plusTo20 l = l := by
  induction l with
  | nil => rfl
  | cons c cs ih =>
    simp only [List.mem_cons] at h
    unfold plusTo20
    rw [if_neg (fun hc => h (Or.inl hc.symm)), ih (fun hc => h (Or.inr hc))]

theorem plus_not_mem_escapeChar {c : Char} (hs : c ≠ ' ') : '+' ∉ escapeChar c := by
  unfold escapeChar
  rw [if_neg hs]
  by_cases hu : isUnreservedChar c = true
  · rw [if_pos hu]
    simp only [List.mem_singleton]
    intro hc
    rw [← hc] at hu
    exact absurd hu (by decide)
  · rw [if_neg hu]
    intro hmem
    simp only [List.mem_flatMap, List.mem_cons] at hmem
    obtain ⟨b, _, hc | hc | hc | hc⟩ := hmem
    · exact absurd hc (by decide)
    · exact (hexDigitUpper_ne_plus (b / 16)) hc.symm
    · exact (hexDigitUpper_ne_plus (b % 16)) hc.symm
    · simp at hc

theorem plusTo20_escapeChar (c : Char) : plusTo20 (escapeChar c) = escape20 c := by
  by_cases hs : c = ' '
  · subst hs
    decide
  · rw [show escape20 c = escapeChar c from if_neg hs,
      plusTo20_eq_self (plus_not_mem_escapeChar hs)]

theorem plusTo20_queryEscapeL (l : List Char) :
    plusTo20 (queryEscapeL l) = l.flatMap escape20 := by
  unfold queryEscapeL
  induction l with
  | nil => rfl
  | cons c cs ih =>
    rw [List.flatMap_cons, plusTo20_append, plusTo20_escapeChar, ih, List.flatMap_cons]

theorem plusTo20_joinAmp (ls : List (List Char)) :
    plusTo20 (joinAmp ls) = joinAmp (ls.map plusTo20) := by
  induction ls with
  | nil => rfl
  | cons x xs ih =>
    cases xs with
    | nil => rfl
    | cons y ys =>
      show plusTo20 (x ++ '&' :: joinAmp (y :: ys)) = _
      rw [plusTo20_append]
      rw [show plusTo20 ('&' :: joinAmp (y :: ys)) = '&' :: plusTo20 (joinAmp (y :: ys)) from
        by simp [plusTo20]]
      rw [ih]
      rfl

theorem encodeQuery_eq_escape20 (v : Values) : encodeQuery v = ⟨valuesEncode20L v⟩ := by
  unfold encodeQuery valuesEncodeL valuesEncode20L
  refine congrArg String.mk ?_
  rw [plusTo20_joinAmp]
  refine congrArg joinAmp ?_
  rw [List.map_flatMap]
  refine List.flatMap_congr (fun k _ => ?_)
  rw [List.map_map]
  refine List.map_congr_left (fun x _ => ?_)
  show plusTo20 (queryEscapeL k.data ++ '=' :: queryEscapeL x.data) = _
  rw [plusTo20_append]
  rw [show plusTo20 ('=' :: queryEscapeL x.data) = '=' :: plusTo20 (queryEscapeL x.data) from
    by simp [plusTo20]]
  rw [plusTo20_queryEscapeL, plusTo20_queryEscapeL]

theorem valsFor_valuesSet (k k2 v : String) (q : Values) :
    valsFor k (valuesSet k2 v q) = if k2 = k then [v] else valsFor k q := by
  induction q with
  | nil => by_cases h : k2 = k <;> simp [valuesSet, valsFor, h]
  | cons e rest ih =>
    obtain ⟨k3, vs⟩ := e
    by_cases h1 : k3 = k2
    · subst h1
      by_cases h2 : k3 = k
      · subst h2
        simp [valuesSet, valsFor]
      · simp [valuesSet, valsFor, h2]
    · by_cases h2 : k3 = k
      · subst h2
        have h3 : ¬(k2 = k3) := fun h => h1 h.symm
        simp [valuesSet, valsFor, h1, h3]
      · simp [valuesSet, valsFor, h1, h2, ih]

theorem valsFor_foldl_head (k valhd : String) (e : List (String × List String)) :
    ∀ (q : Values) (tl : List String), valsFor k q = valhd :: tl →
      ∃ t, valsFor k (e.foldl addAll q) = valhd :: t := by
  induction e with
  | nil => exact fun q tl h => ⟨tl, h⟩
  | cons x rest ih =>
    intro q tl h
    show ∃ t, valsFor k (rest.foldl addAll (addAll q x)) = valhd :: t
    by_cases hx : x.1 = k
    · exact ih (addAll q x) (tl ++ x.2) (by rw [valsFor_addAll, if_pos hx, h]; rfl)
    · exact ih (addAll q x) tl (by rw [valsFor_addAll, if_neg hx, h])

theorem valsFor_s_parseQuery (s n c : String) (a : Bool) (e : Values) :
    ∃ t, valsFor "s" (buildParseQuery s n c a e) = s :: t := by
  unfold buildParseQuery
  refine valsFor_foldl_head "s" s e _ [] ?_
  repeat' split
  all_goals simp [valsFor_valuesSet, valuesSet, valsFor]

theorem showBuildURL_shape {now : GoTime} {setName view : String} {rest : List String}
    {e : Values} {u sub : String}
    (h : showBuildURL now setName view rest e = .ok (u, sub)) :
    (∃ qs, u = fantasticalScheme ++ "show/set?" ++ qs) ∨
      (∃ v ds qs, u = fantasticalScheme ++ "show/" ++ v ++ ds ++ qs ∧
        (ds = "" ∨ ∃ dt : Date, ds = "/" ++ formatYMD dt) ∧
        ((e = ([] : Values) ∧ qs = "") ∨
          (e ≠ ([] : Values) ∧ qs = "?" ++ encodeQuery e))) := by
  simp only [showBuildURL] at h
  split at h
  · split at h
    · exact absurd h (by simp)
    · left
      have hinj := Except.ok.inj h
      exact ⟨encodeQuery (e.foldl addAll (valuesSet "name" (trimSpace setName) [])),
        (congrArg Prod.fst hinj).symm⟩
  · split at h
    · exact absurd h (by simp)
    · rename_i sub2 rest2 heq
      split at h
      · exact absurd h (by simp)
      · split at h
        · exact absurd h (by simp)
        · rename_i u0 hdu
          right
          have hinj := Except.ok.inj h
          have hu : u = if e ≠ ([] : Values) then u0 ++ "?" ++ encodeQuery e else u0 :=
            (congrArg Prod.fst hinj).symm
          have hu0 : u0 = fantasticalScheme ++ "show/" ++ sub2 ∨
              ∃ dt : Date, u0 = fantasticalScheme ++ "show/" ++ sub2 ++ "/" ++ formatYMD dt := by
            rcases rest2 with _ | ⟨d0, rest3⟩
            · exact Or.inl (Except.ok.inj hdu).symm
            · rcases rest3 with _ | ⟨d1, rest4⟩
              · have hdu2 : (match parseDateArg now d0 with
                    | Except.error e => Except.error e
                    | Except.ok t =>
                      Except.ok (fantasticalScheme ++ "show/" ++ sub2 ++ "/" ++
                        formatYMD t.date)) = Except.ok u0 := hdu
                rcases hdate : parseDateArg now d0 with e0 | t
                · rw [hdate] at hdu2
                  simp at hdu2
                · rw [hdate] at hdu2
                  simp only at hdu2
                  exact Or.inr ⟨t.date, (Except.ok.inj hdu2).symm⟩
              · exact Or.inl (Except.ok.inj hdu).symm
          by_cases he : e = ([] : Values)
          · rw [if_neg (by simpa using he)] at hu
            rcases hu0 with hu0 | ⟨dt, hu0⟩
            · exact ⟨sub2, "", "", by simp [hu, hu0], Or.inl rfl, Or.inl ⟨he, rfl⟩⟩
            · exact ⟨sub2, "/" ++ formatYMD dt, "",
                by simp [hu, hu0, String.append_assoc], Or.inr ⟨dt, rfl⟩, Or.inl ⟨he, rfl⟩⟩
          · rw [if_pos (by simpa using he)] at hu
            rcases hu0 with hu0 | ⟨dt, hu0⟩
            · exact ⟨sub2, "", "?" ++ encodeQuery e,
                by simp [hu, hu0, String.append_assoc], Or.inl rfl, Or.inr ⟨he, rfl⟩⟩
            · exact ⟨sub2, "/" ++ formatYMD dt, "?" ++ encodeQuery e,
                by simp [hu, hu0, String.append_assoc], Or.inr ⟨dt, rfl⟩, Or.inr ⟨he, rfl⟩⟩

/-! ## Claim theorems -/

/-- C4: every constructed URL has the custom-scheme shape: a parse URL is
always `x-fantastical3://parse?` followed by the percent-encoded query, the
query never contains `'+'` (it equals the encoding in which a space becomes
`%20`), and the sentence always appears under key `s`; a show URL is always
`x-fantastical3://show/` followed by either `set?name=…` or the view name,
an optional `/yyyy-mm-dd` date segment, and a query suffix exactly when
extra parameters are present. -/
theorem url_scheme_shape :
    (∀ (s n c : String) (a : Bool) (e : Values),
      buildParseURL s n c a e =
          fantasticalScheme ++ "parse?" ++ encodeQuery (buildParseQuery s n c a e) ∧
        '+' ∉ (buildParseURL s n c a e).data ∧
        ∃ t, valsFor "s" (buildParseQuery s n c a e) = s :: t) ∧
    (∀ v : Values, encodeQuery v = ⟨valuesEncode20L v⟩) ∧
    escape20 ' ' = ['%', '2', '0'] ∧
    (∀ (now : GoTime) (setName view : String) (rest : List String) (e : Values)
        (u sub : String),
      showBuildURL now setName view rest e = .ok (u, sub) →
      (∃ qs, u = fantasticalScheme ++ "show/set?" ++ qs) ∨
        (∃ v2 ds qs, u = fantasticalScheme ++ "show/" ++ v2 ++ ds ++ qs ∧
          (ds = "" ∨ ∃ dt : Date, ds = "/" ++ formatYMD dt) ∧
          ((e = ([] : Values) ∧ qs = "") ∨
            (e ≠ ([] : Values) ∧ qs = "?" ++ encodeQuery e)))) := by
  refine ⟨?_, encodeQuery_eq_escape20, rfl, fun _ _ _ _ _ _ _ h => showBuildURL_shape h⟩
  intro s n c a e
  refine ⟨rfl, ?_, valsFor_s_parseQuery s n c a e⟩
  intro hmem
  have hd : (buildParseURL s n c a e).data =
      fantasticalScheme.data ++ "parse?".data ++
        plusTo20 (valuesEncodeL (buildParseQuery s n c a e)) := by
    show (fantasticalScheme ++ "parse?" ++ encodeQuery (buildParseQuery s n c a e)).data = _
    rw [String.data_append, String.data_append]
    rfl
  rw [hd] at hmem
  simp only [List.mem_append] at hmem
  rcases hmem with (hmem | hmem) | hmem
  · exact absurd hmem (by decide)
  · exact absurd hmem (by decide)
  · exact plus_not_mem_plusTo20 _ hmem

/-- C4 witness: a concrete show URL with a date segment has the documented
shape, and a concrete parse URL query uses `%20` and carries the sentence
under key `s`. -/
theorem url_scheme_shape_witness :
    showBuildURL ⟨⟨2026, 1, 3⟩, 0⟩ "" "month" ["2026-01-03"] [] =
        .ok ("x-fantastical3://show/month/2026-01-03", "month") ∧
      ((∃ qs, "x-fantastical3://show/month/2026-01-03" =
            fantasticalScheme ++ "show/set?" ++ qs) ∨
        (∃ v2 ds qs, "x-fantastical3://show/month/2026-01-03" =
            fantasticalScheme ++ "show/" ++ v2 ++ ds ++ qs ∧
          (ds = "" ∨ ∃ dt : Date, ds = "/" ++ formatYMD dt) ∧
          ((([] : Values) = ([] : Values) ∧ qs = "") ∨
            (([] : Values) ≠ ([] : Values) ∧ qs = "?" ++ encodeQuery ([] : Values))))) ∧
      buildParseURL "Wake up at 8am" "" "" false [] =
        "x-fantastical3://parse?s=Wake%20up%20at%208am" := by
  refine ⟨rfl, ?_, by decide⟩
  exact url_scheme_shape.2.2.2 ⟨⟨2026, 1, 3⟩, 0⟩ "" "month" ["2026-01-03"] []
    "x-fantastical3://show/month/2026-01-03" "month" rfl

/-- C3 counterexample: two extra-parameter maps with the same multiset of
key/value pairs, but a different value order under one key, yield different
parse URLs — so determinism as stated over multisets of pairs fails. -/
theorem url_construction_multiset_counterexample :
    (↑(valuesPairs [("a", ["1", "2"])]) : Multiset (String × String)) =
        ↑(valuesPairs [("a", ["2", "1"])]) ∧
      buildParseURL "x" "" "" false [("a", ["1", "2"])] ≠
        buildParseURL "x" "" "" false [("a", ["2", "1"])] := by
  constructor
  · apply Multiset.coe_eq_coe.mpr
    show List.Perm [("a", "1"), ("a", "2")] [("a", "2"), ("a", "1")]
    exact List.Perm.swap ("a", "2") ("a", "1") []
  · decide

/-- C3 (amended): URL construction is deterministic in the `url.Values` map
semantics: for the same sentence, note, calendar and add flag, and extra
parameter maps that are equal as maps (any iteration order of the same
entries, with per-key value sequences preserved), `buildParseURL`,
`encodeQuery`, and the `cmdShow` URL construction produce identical URLs —
in particular the query-string key order never depends on map iteration
order.  (Reordering values within one key does change the URL, as the
counterexample shows, so per-key value order must be preserved.) -/
theorem url_construction_deterministic (sentence note calendar : String) (add : Bool)
    {e1 e2 : Values} (hperm : e1.Perm e2) (hnd : (e1.map Prod.fst).Nodup) :
    buildParseURL sentence note calendar add e1 =
        buildParseURL sentence note calendar add e2 ∧
      encodeQuery e1 = encodeQuery e2 ∧
      ∀ (now : GoTime) (setName view : String) (rest : List String),
        showBuildURL now setName view rest e1 = showBuildURL now setName view rest e2 := by
  have hkeys : (e1.map Prod.fst).Perm (e2.map Prod.fst) := hperm.map _
  have hvals := valsFor_perm hperm hnd
  have henc : encodeQuery e1 = encodeQuery e2 := by
    unfold encodeQuery
    rw [valuesEncodeL_congr hkeys hvals]
  have hfold : ∀ q0 : Values,
      encodeQuery (e1.foldl addAll q0) = encodeQuery (e2.foldl addAll q0) := by
    intro q0
    obtain ⟨hk, hv⟩ := foldl_addAll_perm hperm q0 hnd
    unfold encodeQuery
    rw [valuesEncodeL_congr hk hv]
  refine ⟨?_, henc, ?_⟩
  · unfold buildParseURL buildParseQuery
    simp only [hfold]
  · intro now setName view rest
    have hnil : (e1 ≠ ([] : Values)) ↔ (e2 ≠ ([] : Values)) := by
      constructor
      · intro h1 h2
        subst h2
        exact h1 hperm.eq_nil
      · intro h1 h2
        subst h2
        exact h1 hperm.symm.eq_nil
    unfold showBuildURL
    simp only [hfold, henc]
    by_cases hz : e1 = ([] : Values)
    · have hz2 : e2 = ([] : Values) := by
        rw [hz] at hperm
        exact hperm.symm.eq_nil
      rw [hz, hz2]
    · have hz2 : e2 ≠ ([] : Values) := hnil.mp hz
      simp only [ne_eq, hz, hz2, not_false_eq_true, if_true]

/-- C3 witness: the amended determinism theorem at a concrete pair of
permuted extra-parameter maps. -/
theorem url_construction_deterministic_witness :
    buildParseURL "Lunch" "" "" false [("b", ["2"]), ("a", ["1"])] =
      buildParseURL "Lunch" "" "" false [("a", ["1"]), ("b", ["2"])] :=
  (url_construction_deterministic "Lunch" "" "" false
    (List.Perm.swap ("a", ["1"]) ("b", ["2"]) []) (by decide)).1

/-- C2: `parseDateArg` trims and case-insensitively matches its argument:
`today`/`tomorrow`/`yesterday` give local midnight of the current, next and
previous calendar day; any other non-empty string succeeds exactly when it is
a valid `yyyy-mm-dd` date (and re-formatting the result with the
`2006-01-02` pattern yields the input back), and every failure — the empty
string or any other input — is a usage error. -/
theorem parseDateArg_spec (now : GoTime) (s : String) (hval : ValidDate now.date) :
    (trimSpace s = "" → parseDateArg now s = .error ⟨true, "empty date"⟩) ∧
    (lowerStr (trimSpace s) = "today" → parseDateArg now s = .ok ⟨now.date, 0⟩) ∧
    (lowerStr (trimSpace s) = "tomorrow" →
      parseDateArg now s = .ok ⟨(if now.date.day < daysInMonth now.date.year now.date.month
          then ⟨now.date.year, now.date.month, now.date.day + 1⟩
          else if now.date.month < 12 then ⟨now.date.year, now.date.month + 1, 1⟩
          else ⟨now.date.year + 1, 1, 1⟩), 0⟩) ∧
    (lowerStr (trimSpace s) = "yesterday" →
      parseDateArg now s = .ok ⟨(if 1 < now.date.day
          then ⟨now.date.year, now.date.month, now.date.day - 1⟩
          else if 1 < now.date.month
          then ⟨now.date.year, now.date.month - 1, daysInMonth now.date.year (now.date.month - 1)⟩
          else ⟨now.date.year - 1, 12, 31⟩), 0⟩) ∧
    (trimSpace s ≠ "" → lowerStr (trimSpace s) ≠ "today" →
      lowerStr (trimSpace s) ≠ "tomorrow" → lowerStr (trimSpace s) ≠ "yesterday" →
      ∀ t, parseDateArg now s = .ok t ↔
        ∃ dt, ValidDate dt ∧ 0 ≤ dt.year ∧ dt.year ≤ 9999 ∧ formatYMD dt = trimSpace s ∧
          t = ⟨dt, 0⟩) ∧
    (∀ e, parseDateArg now s = .error e → e.usage = true) := by
  have hkw : ∀ w : String, w ≠ "" → lowerStr "" ≠ w := by
    intro w hw
    simpa [lowerStr] using fun hcontr => hw hcontr.symm
  refine ⟨?_, ?_, ?_, ?_, ?_, ?_⟩
  · intro hz
    simp only [parseDateArg]
    rw [if_pos hz]
  · intro hk
    have hne : trimSpace s ≠ "" := by
      intro hz
      rw [hz] at hk
      exact absurd hk (by decide)
    simp only [parseDateArg]
    rw [if_neg hne, if_pos hk]
    rfl
  · intro hk
    have hne : trimSpace s ≠ "" := by
      intro hz
      rw [hz] at hk
      exact absurd hk (by decide)
    have hk1 : lowerStr (trimSpace s) ≠ "today" := by
      rw [hk]
      decide
    simp only [parseDateArg]
    rw [if_neg hne, if_neg hk1, if_pos hk]
    show Except.ok (⟨addDays now.date 1, 0⟩ : GoTime) = _
    rw [addDays_one hval]
  · intro hk
    have hne : trimSpace s ≠ "" := by
      intro hz
      rw [hz] at hk
      exact absurd hk (by decide)
    have hk1 : lowerStr (trimSpace s) ≠ "today" := by
      rw [hk]
      decide
    have hk2 : lowerStr (trimSpace s) ≠ "tomorrow" := by
      rw [hk]
      decide
    simp only [parseDateArg]
    rw [if_neg hne, if_neg hk1, if_neg hk2, if_pos hk]
    show Except.ok (⟨addDays now.date (-1), 0⟩ : GoTime) = _
    rw [addDays_neg_one hval]
  · intro hne hk1 hk2 hk3 t
    simp only [parseDateArg]
    rw [if_neg hne, if_neg hk1, if_neg hk2, if_neg hk3]
    constructor
    · intro hok
      rcases hp : parseYMD (trimSpace s) with _ | dt
      · rw [hp] at hok
        exact absurd hok (by simp)
      · rw [hp] at hok
        obtain ⟨hv, h0, h9, hfmt⟩ := parseYMD_sound hp
        refine ⟨dt, hv, h0, h9, hfmt, ?_⟩
        have := Except.ok.inj hok
        exact this.symm
    · rintro ⟨dt, hv, h0, h9, hfmt, ht⟩
      have hcomp := parseYMD_complete hv h0 h9
      rw [hfmt] at hcomp
      rw [hcomp, ht]
  · intro e he
    simp only [parseDateArg] at he
    by_cases hz : trimSpace s = ""
    · rw [if_pos hz] at he
      have := Except.error.inj he
      rw [← this]
    · rw [if_neg hz] at he
      by_cases hk1 : lowerStr (trimSpace s) = "today"
      · rw [if_pos hk1] at he
        exact absurd he (by simp)
      · rw [if_neg hk1] at he
        by_cases hk2 : lowerStr (trimSpace s) = "tomorrow"
        · rw [if_pos hk2] at he
          exact absurd he (by simp)
        · rw [if_neg hk2] at he
          by_cases hk3 : lowerStr (trimSpace s) = "yesterday"
          · rw [if_pos hk3] at he
            exact absurd he (by simp)
          · rw [if_neg hk3] at he
            rcases hp : parseYMD (trimSpace s) with _ | dt
            · rw [hp] at he
              have := Except.error.inj he
              rw [← this]
            · rw [hp] at he
              exact absurd he (by simp)

/-- C2 witness: at a concrete end-of-month instant, `tomorrow` resolves to
midnight of the first of the next month, and a concrete `yyyy-mm-dd` string
parses to its own midnight and re-formats to itself. -/
theorem parseDateArg_spec_witness :
    ValidDate ⟨2026, 1, 31⟩ ∧
      parseDateArg ⟨⟨2026, 1, 31⟩, 3600⟩ " ToMorrow " = .ok ⟨⟨2026, 2, 1⟩, 0⟩ ∧
      parseDateArg ⟨⟨2026, 1, 31⟩, 3600⟩ "2026-02-28" = .ok ⟨⟨2026, 2, 28⟩, 0⟩ := by
  have hmain := parseDateArg_spec ⟨⟨2026, 1, 31⟩, 3600⟩ " ToMorrow " (by decide)
  have h1 := hmain.2.2.1 (by decide)
  have hmain2 := parseDateArg_spec ⟨⟨2026, 1, 31⟩, 3600⟩ "2026-02-28" (by decide)
  have h2 := (hmain2.2.2.2.2.1 (by decide) (by decide) (by decide) (by decide)
      ⟨⟨2026, 2, 28⟩, 0⟩).mpr
    ⟨⟨2026, 2, 28⟩, by decide, by decide, by decide, by decide, rfl⟩
  refine ⟨by decide, ?_, h2⟩
  rw [h1]
  rfl

/-- C1: the effective value of every configuration key follows the precedence
flags > environment > project config file > user config file > built-in
defaults (open = true, applescript run = true, all others false/empty): the
explicitly given command-line flag wins, otherwise the parseable
`FANTASTICAL_*` environment override, otherwise the field of the project
config, otherwise the field of the user config, otherwise the built-in
default.  Absent files behave as the empty config; a string field is present
when non-blank, and the environment supplies its trimmed value. -/
theorem config_layering_precedence (ofl : OutputFlags) (pfl : ParseFlags)
    (afl : AppleScriptFlags) (env : Env) (userCfg projectCfg : Option Config) :
    (effectiveOutputOptions ofl env userCfg projectCfg).open_
        = ofl.open_.getD ((envBool env "FANTASTICAL_DEFAULT_OPEN").getD
            (((projectCfg.getD {}).output.open_).getD
              (((userCfg.getD {}).output.open_).getD true))) ∧
    (effectiveOutputOptions ofl env userCfg projectCfg).print
        = ofl.print.getD ((envBool env "FANTASTICAL_DEFAULT_PRINT").getD
            (((projectCfg.getD {}).output.print).getD
              (((userCfg.getD {}).output.print).getD false))) ∧
    (effectiveOutputOptions ofl env userCfg projectCfg).copy
        = ofl.copy.getD ((envBool env "FANTASTICAL_DEFAULT_COPY").getD
            (((projectCfg.getD {}).output.copy).getD
              (((userCfg.getD {}).output.copy).getD false))) ∧
    (effectiveOutputOptions ofl env userCfg projectCfg).json
        = ofl.json.getD ((envBool env "FANTASTICAL_DEFAULT_JSON").getD
            (((projectCfg.getD {}).output.json).getD
              (((userCfg.getD {}).output.json).getD false))) ∧
    (effectiveOutputOptions ofl env userCfg projectCfg).plain
        = ofl.plain.getD ((envBool env "FANTASTICAL_DEFAULT_PLAIN").getD
            (((projectCfg.getD {}).output.plain).getD
              (((userCfg.getD {}).output.plain).getD false))) ∧
    (effectiveOutputOptions ofl env userCfg projectCfg).dryRun
        = ofl.dryRun.getD ((envBool env "FANTASTICAL_DRY_RUN").getD
            (((projectCfg.getD {}).output.dryRun).getD
              (((userCfg.getD {}).output.dryRun).getD false))) ∧
    (effectiveOutputOptions ofl env userCfg projectCfg).verbose
        = ofl.verbose.getD ((envBool env "FANTASTICAL_VERBOSE").getD
            (((projectCfg.getD {}).output.verbose).getD
              (((userCfg.getD {}).output.verbose).getD false))) ∧
    (effectiveParseOptions pfl env userCfg projectCfg).add
        = pfl.add.getD ((envBool env "FANTASTICAL_DEFAULT_ADD").getD
            (((projectCfg.getD {}).parse.add).getD
              (((userCfg.getD {}).parse.add).getD false))) ∧
    (effectiveAppleScriptOptions afl env userCfg projectCfg).add
        = afl.add.getD ((envBool env "FANTASTICAL_APPLESCRIPT_ADD").getD
            (((projectCfg.getD {}).applescript.add).getD
              (((userCfg.getD {}).applescript.add).getD false))) ∧
    (effectiveAppleScriptOptions afl env userCfg projectCfg).run
        = afl.run.getD ((envBool env "FANTASTICAL_APPLESCRIPT_RUN").getD
            (((projectCfg.getD {}).applescript.run).getD
              (((userCfg.getD {}).applescript.run).getD true))) ∧
    (effectiveAppleScriptOptions afl env userCfg projectCfg).print
        = afl.print.getD ((envBool env "FANTASTICAL_APPLESCRIPT_PRINT").getD
            (((projectCfg.getD {}).applescript.print).getD
              (((userCfg.getD {}).applescript.print).getD false))) ∧
    (effectiveParseOptions pfl env userCfg projectCfg).calendar
        = pfl.calendar.getD ((envString env "FANTASTICAL_DEFAULT_CALENDAR").getD
            ((optStr ((projectCfg.getD {}).parse.calendar)).getD
              ((optStr ((userCfg.getD {}).parse.calendar)).getD ""))) ∧
    (effectiveParseOptions pfl env userCfg projectCfg).note
        = pfl.note.getD ((envString env "FANTASTICAL_DEFAULT_NOTE").getD
            ((optStr ((projectCfg.getD {}).parse.note)).getD
              ((optStr ((userCfg.getD {}).parse.note)).getD ""))) := by
  have hstr : ∀ (f e : Option String) (pc uc : String)
      (he : ∀ v, e = some v → trimSpace v = v ∧ v ≠ ""),
      f.getD (if trimSpace (e.getD (if trimSpace pc ≠ "" then pc
            else if trimSpace uc ≠ "" then uc else "")) ≠ ""
          then e.getD (if trimSpace pc ≠ "" then pc
            else if trimSpace uc ≠ "" then uc else "") else "")
        = f.getD (e.getD ((optStr pc).getD ((optStr uc).getD ""))) := by
    intro f e pc uc he
    have hM : (if trimSpace pc ≠ "" then pc else if trimSpace uc ≠ "" then uc else "")
        = (optStr pc).getD ((optStr uc).getD "") := by
      by_cases h1 : trimSpace pc = "" <;> by_cases h2 : trimSpace uc = "" <;>
        simp [optStr, h1, h2]
    have hMinv : (if trimSpace pc ≠ "" then pc else if trimSpace uc ≠ "" then uc else "") = ""
        ∨ trimSpace (if trimSpace pc ≠ "" then pc
            else if trimSpace uc ≠ "" then uc else "") ≠ "" := by
      by_cases h1 : trimSpace pc = "" <;> by_cases h2 : trimSpace uc = "" <;>
        simp [h1, h2]
    rw [strDefault e _ he hMinv, hM]
  refine ⟨?_, ?_, ?_, ?_, ?_, ?_, ?_, ?_, ?_, ?_, ?_, ?_, ?_⟩ <;>
    simp only [effectiveOutputOptions, effectiveParseOptions, effectiveAppleScriptOptions,
      loadConfig_getD, mergeConfig, applyEnvOverrides, defaultOutputOptions,
      defaultParseOptions, defaultAppleScriptOptions, applyOutputFlags, applyParseFlags,
      applyAppleScriptFlags, or_getD, Option.getD_none, Option.none_or, Option.or_none]
  · exact hstr pfl.calendar _ _ _ (fun v hv => envString_some hv)
  · exact hstr pfl.note _ _ _ (fun v hv => envString_some hv)

/-- C1 witness: with no flag, a parseable environment override beats the
project file; with neither environment nor project value, the user file wins;
with nothing set the built-in default `open = true` applies. -/
theorem config_layering_precedence_witness :
    (effectiveOutputOptions {} (fun k => if k = "FANTASTICAL_DEFAULT_PRINT" then "true" else "")
        (some { output := { print := some false } })
        (some { output := { print := some false } })).print = true ∧
    (effectiveOutputOptions {} (fun _ => "")
        (some { output := { copy := some true } }) none).copy = true ∧
    (effectiveOutputOptions {} (fun _ => "") none none).open_ = true := by
  refine ⟨?_, ?_, ?_⟩
  · have h := (config_layering_precedence {} {} {}
      (fun k => if k = "FANTASTICAL_DEFAULT_PRINT" then "true" else "")
      (some { output := { print := some false } })
      (some { output := { print := some false } })).2.1
    rw [h]
    decide
  · have h := (config_layering_precedence {} {} {} (fun _ => "")
      (some { output := { copy := some true } }) none).2.2.1
    rw [h]
    decide
  · have h := (config_layering_precedence {} {} {} (fun _ => "") none none).1
    rw [h]
    decide

/-- C5: `ensureEventKitHelper` returns the cached helper without recompiling
exactly when the helper binary exists and the stored hash file's trimmed
content equals the hash of the embedded source; in every other case it writes
the source, recompiles and records the new hash, so (for an injective hash
and a cache whose hash file was recorded for its binary) the cached binary
corresponds to the current embedded source after every successful call. -/
theorem ensureEventKitHelper_cache_spec (h : String → String) (srcText : String)
    (compileOk : Bool) (st : HelperCache)
    (hinj : Function.Injective h)
    (hconsistent : ∀ s c, st.binary = some s → st.hashFile = some c → trimSpace c = h s) :
    (ensureEventKitHelper h srcText compileOk st = .ok (st, false) ↔
      st.binary.isSome ∧ ∃ c, st.hashFile = some c ∧ trimSpace c = h srcText) ∧
    (¬ (st.binary.isSome ∧ ∃ c, st.hashFile = some c ∧ trimSpace c = h srcText) →
      compileOk = true →
      ensureEventKitHelper h srcText compileOk st =
        .ok (⟨some srcText, some (h srcText ++ "\n"), some srcText⟩, true)) ∧
    (∀ st2 r, ensureEventKitHelper h srcText compileOk st = .ok (st2, r) →
      st2.binary = some srcText ∧ st2.hashFile.isSome) := by
  have hhit : (st.binary.isSome &&
      (match st.hashFile with
       | some current => decide (trimSpace current = h srcText)
       | none => false)) = true ↔
      st.binary.isSome ∧ ∃ c, st.hashFile = some c ∧ trimSpace c = h srcText := by
    cases hb : st.binary <;> cases hf : st.hashFile <;> simp
  refine ⟨?_, ?_, ?_⟩
  · by_cases hc : (st.binary.isSome &&
        (match st.hashFile with
         | some current => decide (trimSpace current = h srcText)
         | none => false)) = true
    · simp only [ensureEventKitHelper, hc, if_true, true_iff]
      exact hhit.mp hc
    · have hc' := Bool.not_eq_true _ ▸ hc
      simp only [Bool.not_eq_true] at hc'
      simp only [ensureEventKitHelper, hc', Bool.false_eq_true, if_false]
      constructor
      · intro hcontr
        rcases hok : compileOk with _ | _ <;> rw [hok] at hcontr <;> simp at hcontr
      · intro hp
        exact absurd (hhit.mpr hp) (by simp [hc'])
  · intro hmiss hok
    have hc' : (st.binary.isSome &&
        (match st.hashFile with
         | some current => decide (trimSpace current = h srcText)
         | none => false)) = false := by
      rcases hb : (st.binary.isSome &&
          (match st.hashFile with
           | some current => decide (trimSpace current = h srcText)
           | none => false)) with _ | _
      · rfl
      · exact absurd (hhit.mp hb) hmiss
    simp [ensureEventKitHelper, hc', hok]
  · intro st2 r hres
    simp only [ensureEventKitHelper] at hres
    by_cases hc : (st.binary.isSome &&
        (match st.hashFile with
         | some current => decide (trimSpace current = h srcText)
         | none => false)) = true
    · rw [if_pos hc] at hres
      obtain ⟨hb, c, hf, htr⟩ := hhit.mp hc
      obtain ⟨s, hs⟩ := Option.isSome_iff_exists.mp hb
      have hcs := hconsistent s c hs hf
      have hssrc : s = srcText := hinj (hcs.symm.trans htr)
      have hst : st2 = st := by
        have := Except.ok.inj hres
        exact ((Prod.mk.injEq _ _ _ _ ▸ this).1).symm
      subst hst
      subst hssrc
      exact ⟨hs, by simp [hf]⟩
    · have hc' := Bool.not_eq_true _ ▸ hc
      simp only [Bool.not_eq_true] at hc'
      rw [hc'] at hres
      simp only [Bool.false_eq_true, if_false] at hres
      rcases hok : compileOk with _ | _ <;> rw [hok] at hres <;> simp at hres
      obtain ⟨h1, h2⟩ := hres
      rw [← h1]
      simp

/-- C5 witness: on an empty cache with a successful compile, the helper is
recompiled and afterwards corresponds to the embedded source. -/
theorem ensureEventKitHelper_cache_spec_witness :
    ensureEventKitHelper (fun s => s) "src" true {} =
        .ok (⟨some "src", some ("src" ++ "\n"), some "src"⟩, true) ∧
      ∀ st2 r, ensureEventKitHelper (fun s => s) "src" true {} = .ok (st2, r) →
        st2.binary = some "src" ∧ st2.hashFile.isSome := by
  have hmain := ensureEventKitHelper_cache_spec (fun s => s) "src" true {}
    (fun a b hab => hab) (by intro s c hs hc; simp at hs)
  exact ⟨hmain.2.1 (by simp) rfl, hmain.2.2⟩

/-- C6: errors from subcommands propagate unchanged to `run`, which prints
them to the error writer prefixed with `Error:` and exits 2 for usage errors
(also for missing or unknown commands) and 1 otherwise; no error yields exit
code 0. -/
theorem run_error_propagation (dispatch : String → List String → Option CLIError)
    (args : List String) :
    (args.length < 2 → run dispatch args = (2, ["usage"])) ∧
    (∀ cmd, 2 ≤ args.length → cmd = lowerStr (args.getD 1 "") →
      ¬ (cmd = "version" ∨ cmd = "--version") → knownCommands.contains cmd →
      (∀ e, dispatch cmd (args.drop 2) = some e →
        run dispatch args = ((if e.usage then 2 else 1), ["Error: " ++ e.msg])) ∧
      (dispatch cmd (args.drop 2) = none → run dispatch args = (0, []))) ∧
    (∀ cmd, 2 ≤ args.length → cmd = lowerStr (args.getD 1 "") →
      ¬ (cmd = "version" ∨ cmd = "--version") → ¬ knownCommands.contains cmd →
      run dispatch args = (2, ["Unknown command: " ++ cmd, "usage"])) := by
  refine ⟨?_, ?_, ?_⟩
  · intro hlen
    unfold run
    simp [hlen]
  · intro cmd hlen hcmd hver hknown
    subst hcmd
    constructor
    · intro e hdisp
      unfold run
      rw [if_neg (by omega), if_neg hver, if_pos (by exact hknown), hdisp]
    · intro hdisp
      unfold run
      rw [if_neg (by omega), if_neg hver, if_pos (by exact hknown), hdisp]
  · intro cmd hlen hcmd hver hknown
    subst hcmd
    unfold run
    rw [if_neg (by omega), if_neg hver, if_neg (by exact hknown)]

/-- C6 witness: a non-usage error from the `parse` subcommand is printed with
the `Error:` prefix and exits 1. -/
theorem run_error_propagation_witness :
    run (fun _ _ => some ⟨false, "boom"⟩) ["fantastical", "parse", "x"] = (1, ["Error: boom"]) := by
  have hmain := (run_error_propagation (fun _ _ => some ⟨false, "boom"⟩)
    ["fantastical", "parse", "x"]).2.1 "parse" (by decide) (by decide) (by decide) (by decide)
  exact hmain.1 ⟨false, "boom"⟩ rfl

/-- C7: the script text given to osascript with `-e` is a fixed constant,
independent of the sentence; the sentence and the add flag appear only after
the `--` separator, as positional data arguments. -/
theorem applescript_input_is_data_only :
    (∀ s₁ s₂ : String, ∀ a₁ a₂ : Bool,
      (osascriptArgs s₁ a₁).takeWhile (fun x => x ≠ "--") =
        (osascriptArgs s₂ a₂).takeWhile (fun x => x ≠ "--")) ∧
    (∀ (s : String) (a : Bool),
      (osascriptArgs s a).dropWhile (fun x => x ≠ "--") =
        ["--", s, if a then "1" else "0"]) ∧
    (∀ (opts : AppleScriptOptions) (args : List String) (stdinData : String)
        (la : List String),
      Event.runOsascript la ∈ (cmdAppleScriptCore opts args stdinData).1 →
      ∃ s, readSentence args opts.stdin stdinData = .ok s ∧ la = osascriptArgs s opts.add) := by
  have htake : ∀ (s : String) (a : Bool),
      (osascriptArgs s a).takeWhile (fun x => x ≠ "--") =
        scriptLines.flatMap (fun line => ["-e", line]) := by
    intro s a
    simp [osascriptArgs, scriptLines, List.takeWhile]
  refine ⟨fun s₁ s₂ a₁ a₂ => by rw [htake, htake], ?_, ?_⟩
  · intro s a
    simp [osascriptArgs, scriptLines, List.dropWhile]
  · intro opts args stdinData la hmem
    unfold cmdAppleScriptCore at hmem
    rcases hdry : opts.dryRun with _ | _
    · rw [hdry] at hmem
      simp only [Bool.false_eq_true, if_false] at hmem
      rcases hsent : readSentence args opts.stdin stdinData with e | s
      · rw [hsent] at hmem
        simp at hmem
      · rw [hsent] at hmem
        simp only at hmem
        rcases hrun : opts.run with _ | _
        · rw [hrun] at hmem
          simp at hmem
        · rw [hrun] at hmem
          simp at hmem
          exact ⟨s, rfl, hmem⟩
    · rw [hdry] at hmem
      simp only [if_true] at hmem
      rcases hsent : readSentence args opts.stdin stdinData with e | s <;>
        rw [hsent] at hmem <;> simp at hmem

/-- C7 witness: a concrete invocation hands osascript the sentence as a data
argument after `--`. -/
theorem applescript_input_is_data_only_witness :
    ∃ s, readSentence ["hello", "world"] false "" = .ok s ∧
      osascriptArgs "hello world" false = osascriptArgs s false := by
  have hmain := applescript_input_is_data_only.2.2 { run := true } ["hello", "world"] ""
    (osascriptArgs "hello world" false)
    (by decide)
  obtain ⟨s, hs, hla⟩ := hmain
  exact ⟨s, hs, hla⟩

/-- C8: when the effective options (flags, environment or config) enable both
JSON and plain output, `parse` and `show` fail with the usage error
`--json and --plain are mutually exclusive` before emitting any event
(no URL output, no clipboard, no open); the eventkit subcommands reject the
same combination, and also reject combining `--format` with `--json`/`--plain`,
before any helper invocation. -/
theorem json_plain_mutually_exclusive :
    (∀ (fl : ParseFlags) (env : Env) (userCfg projectCfg : Option Config)
        (args : List String) (stdinData : String),
      (effectiveParseOptions fl env userCfg projectCfg).out.json = true →
      (effectiveParseOptions fl env userCfg projectCfg).out.plain = true →
      cmdParseCore (effectiveParseOptions fl env userCfg projectCfg) args stdinData =
        ([], some ⟨true, "--json and --plain are mutually exclusive"⟩)) ∧
    (∀ (now : GoTime) (opts : ShowOptions) (rest : List String),
      opts.out.json = true → opts.out.plain = true →
      cmdShowCore now opts rest =
        ([], some ⟨true, "--json and --plain are mutually exclusive"⟩)) ∧
    (∀ opts : EventKitStatusOptions, opts.format = "" →
      opts.json = true → opts.plain = true →
      cmdEventKitStatusCore opts =
        (none, some ⟨true, "--json and --plain are mutually exclusive"⟩)) ∧
    (∀ opts : EventKitCalendarsOptions, opts.format = "" →
      opts.json = true → opts.plain = true →
      cmdEventKitCalendarsCore opts =
        (none, some ⟨true, "--json and --plain are mutually exclusive"⟩)) ∧
    (∀ opts : EventKitEventsOptions, opts.format = "" →
      opts.json = true → opts.plain = true →
      cmdEventKitEventsCore opts =
        (none, some ⟨true, "--json and --plain are mutually exclusive"⟩)) ∧
    (∀ (format : String) (json plain : Bool) (allowed : List String),
      format ≠ "" → (json = true ∨ plain = true) →
      resolveEventKitFormat format json plain allowed =
        .error ⟨true, "cannot combine --format with --json/--plain"⟩) := by
  refine ⟨?_, ?_, ?_, ?_, ?_, ?_⟩
  · intro fl env userCfg projectCfg args stdinData hj hp
    simp [cmdParseCore, hj, hp]
  · intro now opts rest hj hp
    simp [cmdShowCore, hj, hp]
  · intro opts hf hj hp
    simp [cmdEventKitStatusCore, resolveEventKitFormat, hf, hj, hp]
  · intro opts hf hj hp
    simp [cmdEventKitCalendarsCore, resolveEventKitFormat, hf, hj, hp]
  · intro opts hf hj hp
    simp [cmdEventKitEventsCore, resolveEventKitFormat, hf, hj, hp]
  · intro format json plain allowed hf hjp
    rcases hjp with hj | hp
    · simp [resolveEventKitFormat, hf, hj]
    · simp [resolveEventKitFormat, hf, hp]

/-- C8 witness: a config file enabling JSON plus a `--plain` flag triggers the
usage error with an empty event trace. -/
theorem json_plain_mutually_exclusive_witness :
    (effectiveParseOptions { out := { plain := some true } } (fun _ => "")
        (some { output := { json := some true } }) none).out.json = true ∧
    cmdParseCore (effectiveParseOptions { out := { plain := some true } } (fun _ => "")
        (some { output := { json := some true } }) none) ["x"] "" =
      ([], some ⟨true, "--json and --plain are mutually exclusive"⟩) := by
  refine ⟨by decide, ?_⟩
  exact json_plain_mutually_exclusive.1 { out := { plain := some true } } (fun _ => "")
    (some { output := { json := some true } }) none ["x"] "" (by decide) (by decide)

/-- C9: with dry-run enabled, `parse` and `show` never copy to the clipboard
and never open a URL, and `applescript` never runs osascript and (on a
successfully read sentence) prints the script instead. -/
theorem dry_run_no_side_effects :
    (∀ (opts : ParseOptions) (args : List String) (stdinData : String) (v : String),
      opts.out.dryRun = true →
      Event.copyClip v ∉ (cmdParseCore opts args stdinData).1 ∧
        Event.openCmd v ∉ (cmdParseCore opts args stdinData).1) ∧
    (∀ (now : GoTime) (opts : ShowOptions) (rest : List String) (v : String),
      opts.out.dryRun = true →
      Event.copyClip v ∉ (cmdShowCore now opts rest).1 ∧
        Event.openCmd v ∉ (cmdShowCore now opts rest).1) ∧
    (∀ (opts : AppleScriptOptions) (args : List String) (stdinData : String),
      opts.dryRun = true →
      (∀ la, Event.runOsascript la ∉ (cmdAppleScriptCore opts args stdinData).1) ∧
      ((cmdAppleScriptCore opts args stdinData).2 = none →
        Event.printScript (String.intercalate "\n" scriptLines) ∈
          (cmdAppleScriptCore opts args stdinData).1)) := by
  refine ⟨?_, ?_, ?_⟩
  · intro opts args stdinData v hdry
    unfold cmdParseCore
    by_cases hjp : opts.out.json = true ∧ opts.out.plain = true
    · simp [hjp]
    · rw [if_neg (by simpa using hjp)]
      rcases readSentence args opts.stdin stdinData with e | s
      · simp
      · rcases parseParams opts.params with e | extra0
        · simp
        · simp only
          exact outputTail_dry_no_side_effects opts.out hdry _ v
  · intro now opts rest v hdry
    unfold cmdShowCore
    by_cases hjp : opts.out.json = true ∧ opts.out.plain = true
    · simp [hjp]
    · rw [if_neg (by simpa using hjp)]
      rcases parseParams opts.params with e | extra0
      · simp
      · simp only
        rcases showBuildURL now opts.set opts.view rest
          (if trimSpace opts.tz ≠ "" then valuesSet "tz" (trimSpace opts.tz) extra0 else extra0)
          with e | u
        · simp
        · exact outputTail_dry_no_side_effects opts.out hdry _ v
  · intro opts args stdinData hdry
    unfold cmdAppleScriptCore
    rw [hdry]
    simp only [if_true]
    rcases readSentence args ({ opts with run := false, print := true } : AppleScriptOptions).stdin
        stdinData with e | s
    · simp
    · simp

/-- C9 witness: a dry-run `parse` with copy and open enabled produces neither
a clipboard write nor an open. -/
theorem dry_run_no_side_effects_witness :
    Event.copyClip "x" ∉
        (cmdParseCore { out := { open_ := true, copy := true, dryRun := true } } ["hi"] "").1 ∧
      Event.openCmd "x" ∉
        (cmdParseCore { out := { open_ := true, copy := true, dryRun := true } } ["hi"] "").1 := by
  exact dry_run_no_side_effects.1 { out := { open_ := true, copy := true, dryRun := true } }
    ["hi"] "" "x" rfl

/-- C10: a successful `parse` or `show` in which neither open nor copy is
active after dry-run handling writes exactly one output record to stdout,
and the final no-output fallback print is unreachable in every invocation. -/
theorem exactly_one_output_record :
    (∀ (opts : ParseOptions) (args : List String) (stdinData : String) (evts : List Event),
      cmdParseCore opts args stdinData = (evts, none) →
      (postDryRun opts.out).open_ = false → (postDryRun opts.out).copy = false →
      (evts.filter Event.isStdoutRecord).length = 1) ∧
    (∀ (now : GoTime) (opts : ShowOptions) (rest : List String) (evts : List Event),
      cmdShowCore now opts rest = (evts, none) →
      (postDryRun opts.out).open_ = false → (postDryRun opts.out).copy = false →
      (evts.filter Event.isStdoutRecord).length = 1) ∧
    (∀ (opts : ParseOptions) (args : List String) (stdinData : String) (v : String),
      Event.fallbackLine v ∉ (cmdParseCore opts args stdinData).1) ∧
    (∀ (now : GoTime) (opts : ShowOptions) (rest : List String) (v : String),
      Event.fallbackLine v ∉ (cmdShowCore now opts rest).1) := by
  have hparse : ∀ (opts : ParseOptions) (args : List String) (stdinData : String),
      (cmdParseCore opts args stdinData).2 = none →
      ∃ u, (cmdParseCore opts args stdinData).1 = outputTail (postDryRun opts.out) u := by
    intro opts args stdinData hok
    unfold cmdParseCore at hok ⊢
    by_cases hjp : opts.out.json = true ∧ opts.out.plain = true
    · simp [hjp] at hok
    · rw [if_neg (by simpa using hjp)] at hok ⊢
      rcases hs : readSentence args opts.stdin stdinData with e | s
      · rw [hs] at hok
        simp at hok
      · rcases hp : parseParams opts.params with e | extra0
        · rw [hs, hp] at hok
          simp at hok
        · exact ⟨_, rfl⟩
  have hshow : ∀ (now : GoTime) (opts : ShowOptions) (rest : List String),
      (cmdShowCore now opts rest).2 = none →
      ∃ u, (cmdShowCore now opts rest).1 = outputTail (postDryRun opts.out) u := by
    intro now opts rest hok
    unfold cmdShowCore at hok ⊢
    by_cases hjp : opts.out.json = true ∧ opts.out.plain = true
    · simp [hjp] at hok
    · rw [if_neg (by simpa using hjp)] at hok ⊢
      rcases hp : parseParams opts.params with e | extra0
      · rw [hp] at hok
        simp at hok
      · rcases hb : showBuildURL now opts.set opts.view rest
            (if trimSpace opts.tz ≠ "" then valuesSet "tz" (trimSpace opts.tz) extra0 else extra0)
          with e | u
        · rw [hp] at hok
          simp only at hok
          rw [hb] at hok
          simp at hok
        · obtain ⟨u1, sub⟩ := u
          simp only [hb]
          exact ⟨u1, rfl⟩
  have hparseTail : ∀ (opts : ParseOptions) (args : List String) (stdinData : String),
      (∃ u, (cmdParseCore opts args stdinData).1 = outputTail (postDryRun opts.out) u) ∨
        (cmdParseCore opts args stdinData).1 = [] := by
    intro opts args stdinData
    unfold cmdParseCore
    by_cases hjp : opts.out.json = true ∧ opts.out.plain = true
    · simp [hjp]
    · rw [if_neg (by simpa using hjp)]
      rcases hs : readSentence args opts.stdin stdinData with e | s
      · simp
      · rcases hp : parseParams opts.params with e | extra0
        · simp
        · exact Or.inl ⟨_, rfl⟩
  have hshowTail : ∀ (now : GoTime) (opts : ShowOptions) (rest : List String),
      (∃ u, (cmdShowCore now opts rest).1 = outputTail (postDryRun opts.out) u) ∨
        (cmdShowCore now opts rest).1 = [] := by
    intro now opts rest
    unfold cmdShowCore
    by_cases hjp : opts.out.json = true ∧ opts.out.plain = true
    · simp [hjp]
    · rw [if_neg (by simpa using hjp)]
      rcases hp : parseParams opts.params with e | extra0
      · simp
      · simp only
        rcases hb : showBuildURL now opts.set opts.view rest
            (if trimSpace opts.tz ≠ "" then valuesSet "tz" (trimSpace opts.tz) extra0 else extra0)
          with e | u
        · simp [hb]
        · obtain ⟨u1, sub⟩ := u
          simp only [hb]
          exact Or.inl ⟨u1, rfl⟩
  refine ⟨?_, ?_, ?_, ?_⟩
  · intro opts args stdinData evts hres ho hc
    obtain ⟨u, hu⟩ := hparse opts args stdinData (by rw [hres])
    rw [hres] at hu
    simp only at hu
    rw [hu]
    exact outputTail_one_record _ u ho hc
  · intro now opts rest evts hres ho hc
    obtain ⟨u, hu⟩ := hshow now opts rest (by rw [hres])
    rw [hres] at hu
    simp only at hu
    rw [hu]
    exact outputTail_one_record _ u ho hc
  · intro opts args stdinData v
    rcases hparseTail opts args stdinData with ⟨u, hu⟩ | hnil
    · rw [hu]
      exact outputTail_no_fallback _ u v
    · rw [hnil]
      simp
  · intro now opts rest v
    rcases hshowTail now opts rest with ⟨u, hu⟩ | hnil
    · rw [hu]
      exact outputTail_no_fallback _ u v
    · rw [hnil]
      simp

/-- C10 witness: a `parse` with open and copy disabled emits exactly one
stdout record. -/
theorem exactly_one_output_record_witness :
    cmdParseCore { out := { open_ := false } } ["hi"] "" =
        ([Event.urlLine "x-fantastical3://parse?s=hi"], none) ∧
      (([Event.urlLine "x-fantastical3://parse?s=hi"] : List Event).filter
        Event.isStdoutRecord).length = 1 := by
  refine ⟨by decide, ?_⟩
  exact exactly_one_output_record.1 { out := { open_ := false } } ["hi"] ""
    [Event.urlLine "x-fantastical3://parse?s=hi"] (by decide) rfl rfl

end Fantastical
